import Mathlib

/-!
Inverted index: posting storage, score accumulation and ranking

A shallow embedding of `inverted_index.hpp`, `utilities.hpp` and the 1-nn part of
`knn.hpp`.

* `std::map<K, V>` is a list of entries kept in ascending key order
  (`map_find`, `map_subscript`, `map_store`).
* `std::deque<Posting>` is a `List`.
* `std::multimap<Score, DocumentId>` is a list kept in ascending score order, a new
  entry going after the entries with an equal score (`multimap_insert`).
* An output functor is modelled by the list of the pairs it is called on, in call order.
* A thrown exception is `Except.error`.
* The template parameter `CombinePostingsPerTerm` is a `Bool` argument.
* `size_t` positions and sizes are `Nat`; an `int` (the score of `number_of_matches`,
  the counter of the ranking walk, the positions, features and document ids of the
  classifier) is an `Int` wrapped to 32 bits (`to_int`).
-/

set_option linter.unusedSectionVars false
set_option linter.unusedVariables false

namespace InvertedIndex

/-! ## Containers -/

section Containers

variable {κ ν : Type}

/-- Lookup `std::map::find`: the entry stored under `k`, if there is one. -/
def map_find [LinearOrder κ] : List (κ × ν) → κ → Option (κ × ν)
  | [], _ => none
  | e :: rest, k => if k = e.1 then some e else map_find rest k

/-- Ordered insertion of a fresh entry `(k, v)` in front of the first larger key. -/
def map_emplace [LinearOrder κ] : List (κ × ν) → κ → ν → List (κ × ν)
  | [], k, v => [(k, v)]
  | e :: rest, k, v => if k < e.1 then (k, v) :: e :: rest else e :: map_emplace rest k v

/-- The map after evaluating `m[k]`: an absent key gets a value-initialised entry. -/
def map_subscript [LinearOrder κ] (m : List (κ × ν)) (k : κ) (dflt : ν) : List (κ × ν) :=
  match map_find m k with
  | some _ => m
  | none => map_emplace m k dflt

/-- The value the reference `m[k]` denotes. -/
def map_at [LinearOrder κ] (m : List (κ × ν)) (k : κ) (dflt : ν) : ν :=
  match map_find m k with
  | some e => e.2
  | none => dflt

/-- Assignment through the reference `m[k]`: the value stored under `k` is replaced. -/
def map_store [LinearOrder κ] : List (κ × ν) → κ → ν → List (κ × ν)
  | [], _, _ => []
  | e :: rest, k, v => if k = e.1 then (e.1, v) :: rest else e :: map_store rest k v

/-- The ordering invariant of `std::map`: keys strictly ascending, so no key twice. -/
def map_sorted [LinearOrder κ] (m : List (κ × ν)) : Prop :=
  (m.map Prod.fst).Pairwise (fun a b => a < b)

/-- Conversion of an integer value to a 32-bit `int` (two's complement). -/
def to_int (n : Int) : Int :=
  (n + 2147483648) % 4294967296 - 2147483648

/-- Conversion of an `int` to `size_t` (64 bits). -/
def to_size_t (i : Int) : Nat :=
  (i % 18446744073709551616).toNat

/-- Pair swap `swap_pair` of utilities.hpp. -/
def swap_pair {α β : Type} (p : α × β) : β × α := (p.2, p.1)

/-- Insertion `std::multimap::insert`: after every entry whose key is not larger. -/
def multimap_insert [LinearOrder κ] : List (κ × ν) → κ × ν → List (κ × ν)
  | [], x => [x]
  | e :: rest, x => if x.1 < e.1 then x :: e :: rest else e :: multimap_insert rest x

end Containers

/-! ## Postings and the index -/

/-- Payload policy `PostingData`: construction from `(id, position, term)` and `update`. -/
structure PostingData (τ δ π : Type) where
  init : δ → Nat → τ → π
  update : π → δ → Nat → τ → π

/-- Default payload `NoPostingData`: nothing is stored. -/
def NoPostingData (τ δ : Type) : PostingData τ δ Unit :=
  { init := fun _ _ _ => (), update := fun _ _ _ _ => () }

/-- One posting `Posting`: the document id `_id` and the payload base object. -/
structure Posting (δ π : Type) where
  id : δ
  data : π
deriving DecidableEq

/-- The member `_index`: a map from term to posting list. -/
abbrev Index (τ δ π : Type) := List (τ × List (Posting δ π))

/-- The member `_accu` of an accumulator: a map from document id to score. -/
abbrev Accu (δ σ : Type) := List (δ × σ)

/-- Signature of a score function: previous score, term, posting, number of postings. -/
abbrev ScoreFunction (τ δ π σ : Type) := σ → τ → Posting δ π → Nat → σ

section Model

variable {τ δ π σ : Type} [LinearOrder τ] [LinearOrder δ]

/-- Overload `insert_posting(..., BoolType<false>)`: always push a new posting. -/
def insert_posting_false (ops : PostingData τ δ π) (idx : Index τ δ π)
    (id : δ) (pos : Nat) (term : τ) : Index τ δ π :=
  let idx1 := map_subscript idx term []
  map_store idx1 term (map_at idx1 term [] ++ [Posting.mk id (ops.init id pos term)])

/-- Overload `insert_posting(..., BoolType<true>)`: update the last posting when it
belongs to `id`, push a new posting otherwise. -/
def insert_posting_true (ops : PostingData τ δ π) (idx : Index τ δ π)
    (id : δ) (position : Nat) (term : τ) : Index τ δ π :=
  let idx1 := map_subscript idx term []
  let postings := map_at idx1 term []
  match postings.getLast? with
  | some back =>
    if back.id = id then
      map_store idx1 term
        (postings.dropLast ++ [{ back with data := ops.update back.data id position term }])
    else
      map_store idx1 term (postings ++ [Posting.mk id (ops.init id position term)])
  | none => map_store idx1 term (postings ++ [Posting.mk id (ops.init id position term)])

/-- Public `insert_posting`: dispatch on `CombinePostingsPerTerm`. -/
def insert_posting (combine : Bool) (ops : PostingData τ δ π) (idx : Index τ δ π)
    (id : δ) (pos : Nat) (term : τ) : Index τ δ π :=
  if combine then insert_posting_true ops idx id pos term
  else insert_posting_false ops idx id pos term

/-- The loop of `insert`: one `insert_posting` per term, positions counting up. -/
def insert_loop (combine : Bool) (ops : PostingData τ δ π) (id : δ) :
    List τ → Nat → Index τ δ π → Index τ δ π
  | [], _, idx => idx
  | t :: rest, pos, idx => insert_loop combine ops id rest (pos + 1)
      (insert_posting combine ops idx id pos t)

/-- Member `insert(id, first, last)`: the new index and the returned id. -/
def insert (combine : Bool) (ops : PostingData τ δ π) (idx : Index τ δ π)
    (id : δ) (terms : List τ) : Index τ δ π × δ :=
  (insert_loop combine ops id terms 0 idx, id)

/-- Default score function `number_of_matches`: `++old_score` on a 32-bit `int`. -/
def number_of_matches (old_score : Int) (_term : τ) (_posting : Posting δ π)
    (_num_postings : Nat) : Int :=
  (old_score + 1 + 2147483648) % 4294967296 - 2147483648

/-- Member `Accumulator::update`. -/
def Accumulator.update [Inhabited σ] (score : ScoreFunction τ δ π σ) (accu : Accu δ σ)
    (term : τ) (posting : Posting δ π) (num_postings : Nat) : Accu δ σ :=
  let accu1 := map_subscript accu posting.id default
  map_store accu1 posting.id (score (map_at accu1 posting.id default) term posting num_postings)

/-- Member `Accumulator::matches(out)`: every entry in map order. -/
def Accumulator.all_matches (accu : Accu δ σ) : List (δ × σ) :=
  accu

/-- First loop of `matches(out, k)`: fill the ranking from the accumulator. -/
def ranking_fill [LinearOrder σ] : List (δ × σ) → List (σ × δ) → List (σ × δ)
  | [], ranking => ranking
  | a :: rest, ranking => ranking_fill rest (multimap_insert ranking (swap_pair a))

/-- Second loop of `matches(out, k)`: walk the reversed ranking while `i != k`, the
counter `i` being an `int`. -/
def ranking_walk (k : Int) : List (σ × δ) → Int → List (δ × σ)
  | [], _ => []
  | r :: rest, i => if i ≠ k then swap_pair r :: ranking_walk k rest (to_int (i + 1)) else []

/-- Member `Accumulator::matches(out, k)`: the pairs `out` is called on, in order. -/
def Accumulator.matches [LinearOrder σ] (accu : Accu δ σ) (k : Int) : List (δ × σ) :=
  if k = 0 then Accumulator.all_matches accu
  else ranking_walk k (ranking_fill accu []).reverse 0

/-- The scan of `Accumulator::best_match`: keep the first entry with a larger score. -/
def best_match_scan [LT σ] [DecidableRel (fun (a b : σ) => a < b)] :
    δ × σ → List (δ × σ) → δ × σ
  | best, [] => best
  | best, a :: rest => best_match_scan (if best.2 < a.2 then a else best) rest

/-- Member `Accumulator::best_match`. -/
def Accumulator.best_match [LT σ] [DecidableRel (fun (a b : σ) => a < b)]
    (accu : Accu δ σ) : Except String (δ × σ) :=
  match accu with
  | [] => Except.error "No matching documents"
  | first :: _ => Except.ok (best_match_scan first accu)

/-- The posting loop of `match_term`: `size` is the length of the whole list. -/
def match_term_loop [Inhabited σ] (score : ScoreFunction τ δ π σ) (key : τ) (size : Nat) :
    List (Posting δ π) → Accu δ σ → Accu δ σ
  | [], accu => accu
  | p :: rest, accu =>
    match_term_loop score key size rest (Accumulator.update score accu key p size)

/-- Member `match_term`. -/
def match_term [Inhabited σ] (score : ScoreFunction τ δ π σ) (idx : Index τ δ π)
    (term : τ) (accu : Accu δ σ) : Accu δ σ :=
  match map_find idx term with
  | some entry => match_term_loop score entry.1 entry.2.length entry.2 accu
  | none => accu

/-- The query loop shared by `best_match` and `match`. -/
def match_terms [Inhabited σ] (score : ScoreFunction τ δ π σ) (idx : Index τ δ π) :
    List τ → Accu δ σ → Accu δ σ
  | [], accu => accu
  | t :: rest, accu => match_terms score idx rest (match_term score idx t accu)

/-- Member `InvertedIndex::best_match`. -/
def best_match [Inhabited σ] [LT σ] [DecidableRel (fun (a b : σ) => a < b)]
    (idx : Index τ δ π) (query : List τ) (score : ScoreFunction τ δ π σ) :
    Except String (δ × σ) :=
  Accumulator.best_match (match_terms score idx query [])

/-- Member `InvertedIndex::match`: the pairs `out` is called on, in order. -/
def match_ [Inhabited σ] [LinearOrder σ]
    (idx : Index τ δ π) (query : List τ) (score : ScoreFunction τ δ π σ) (k : Int) :
    List (δ × σ) :=
  Accumulator.matches (match_terms score idx query []) k

/-- The posting list stored under `term`, empty when `term` is not a key. -/
def postings (idx : Index τ δ π) (term : τ) : List (Posting δ π) :=
  map_at idx term []

/-- Replay of a sequence of `insert_posting(id, pos, term)` calls. -/
def insert_postings (combine : Bool) (ops : PostingData τ δ π) :
    Index τ δ π → List (δ × Nat × τ) → Index τ δ π
  | idx, [] => idx
  | idx, c :: rest =>
    insert_postings combine ops (insert_posting combine ops idx c.1 c.2.1 c.2.2) rest

/-- The positions at which `term` occurs in a term sequence whose first position is `pos`. -/
def term_positions (term : τ) : List τ → Nat → List Nat
  | [], _ => []
  | u :: rest, pos =>
    if u = term then pos :: term_positions term rest (pos + 1)
    else term_positions term rest (pos + 1)

/-- The indexes a program can hold: the empty one and the results of `insert_posting`
(`insert` is a sequence of such calls). -/
inductive Reachable (combine : Bool) (ops : PostingData τ δ π) : Index τ δ π → Prop
  | empty : Reachable combine ops []
  | step (idx : Index τ δ π) (id : δ) (pos : Nat) (term : τ) :
      Reachable combine ops idx → Reachable combine ops (insert_posting combine ops idx id pos term)

/-- The `update` calls a query makes, in order: for each query term in turn, each posting
of its list with the length of that list. -/
def query_hits (idx : Index τ δ π) : List τ → List (τ × Posting δ π × Nat)
  | [] => []
  | t :: rest =>
    (postings idx t).map (fun p => (t, p, (postings idx t).length)) ++ query_hits idx rest

/-- The `update` calls of a query that concern document `d`. -/
def hits_of (idx : Index τ δ π) (query : List τ) (d : δ) : List (τ × Posting δ π × Nat) :=
  (query_hits idx query).filter (fun h => h.2.1.id = d)

/-- The score a score function gives a document from its `update` calls, starting from
the value-initialised score. -/
def fold_score [Inhabited σ] (score : ScoreFunction τ δ π σ)
    (hits : List (τ × Posting δ π × Nat)) : σ :=
  hits.foldl (fun s h => score s h.1 h.2.1 h.2.2) default

/-- Replay of a sequence of `insert(id, terms)` calls, one per document. -/
def insert_documents (combine : Bool) (ops : PostingData τ δ π) :
    Index τ δ π → List (δ × List τ) → Index τ δ π
  | idx, [] => idx
  | idx, doc :: rest =>
    insert_documents combine ops (insert combine ops idx doc.1 doc.2).1 rest

/-- The number of occurrences of a term in a term sequence. -/
def term_count (t : τ) (s : List τ) : Nat :=
  s.countP (fun u => u = t)

/-- The number of postings of document `d` in a posting list. -/
def id_count (d : δ) (ps : List (Posting δ π)) : Nat :=
  ps.countP (fun p => p.id = d)

/-- Member `match_term` with the index threaded through: `std::map::find` leaves the
index as it is, for a known and for an unknown term. -/
def match_term_state [Inhabited σ] (score : ScoreFunction τ δ π σ) (idx : Index τ δ π)
    (term : τ) (accu : Accu δ σ) : Index τ δ π × Accu δ σ :=
  match map_find idx term with
  | some entry => (idx, match_term_loop score entry.1 entry.2.length entry.2 accu)
  | none => (idx, accu)

/-- The query loop with the index threaded through. -/
def match_terms_state [Inhabited σ] (score : ScoreFunction τ δ π σ) :
    Index τ δ π → List τ → Accu δ σ → Index τ δ π × Accu δ σ
  | idx, [], accu => (idx, accu)
  | idx, t :: rest, accu =>
    match_terms_state score (match_term_state score idx t accu).1 rest
      (match_term_state score idx t accu).2

/-- Member `InvertedIndex::best_match` as a state transformer: the index afterwards and
the result. -/
def best_match_state [Inhabited σ] [LT σ] [DecidableRel (fun (a b : σ) => a < b)]
    (idx : Index τ δ π) (query : List τ) (score : ScoreFunction τ δ π σ) :
    Index τ δ π × Except String (δ × σ) :=
  ((match_terms_state score idx query []).1,
    Accumulator.best_match (match_terms_state score idx query []).2)

/-- Member `InvertedIndex::match` as a state transformer: the index afterwards and the
visits. -/
def match_state [Inhabited σ] [LinearOrder σ]
    (idx : Index τ δ π) (query : List τ) (score : ScoreFunction τ δ π σ) (k : Int) :
    Index τ δ π × List (δ × σ) :=
  ((match_terms_state score idx query []).1,
    Accumulator.matches (match_terms_state score idx query []).2 k)

/-- No two neighbours of a list are equal. -/
def adjacent_distinct : List δ → Prop
  | a :: b :: rest => a ≠ b ∧ adjacent_distinct (b :: rest)
  | _ => True

/-- A sample payload: the positions a posting was created and updated with. -/
def position_log : PostingData Nat Nat (List Nat) :=
  { init := fun _ pos _ => [pos], update := fun log _ pos _ => log ++ [pos] }

end Model


/-! ## The nearest-neighbour classifier of knn.hpp -/

/-- The term type `Key` = `std::pair<size_t, int>` with its lexicographic order. -/
abbrev Key := Lex (Nat × Int)

/-- The classifier state: `_index` (append policy, `int` document ids, no payload) and
`_labels`. -/
structure KNN (Label : Type) where
  index : Index Key Int Unit
  labels : List Label

/-- A freshly constructed classifier. -/
def KNN.empty {Label : Type} : KNN Label :=
  { index := [], labels := [] }

/-- The loop of `to_terms`: the `int` position, converted to `size_t`, paired with the
feature, converted to the `int` of `Key`. -/
def to_terms_loop : List Int → Int → List Key
  | [], _ => []
  | x :: rest, position =>
    toLex (to_size_t position, to_int x) :: to_terms_loop rest (to_int (position + 1))

/-- Member `to_terms`. -/
def to_terms (features : List Int) : List Key :=
  to_terms_loop features 0

/-- Member `learn`: the label is pushed, the terms are inserted as one document whose id
is `_labels.size() - 1` converted to `int`. -/
def KNN.learn {Label : Type} (knn : KNN Label) (features : List Int) (label : Label) :
    KNN Label :=
  let labels := knn.labels ++ [label]
  let terms := to_terms features
  { index := (insert false (NoPostingData Key Int) knn.index
      (to_int ((labels.length - 1 : Nat) : Int)) terms).1,
    labels := labels }

/-- Member `classify(first, last)`, the 1-nn overload: the error of `best_match`, or the
label at the best document id (`none` for an id outside `_labels`). -/
def KNN.classify {Label : Type} (knn : KNN Label) (features : List Int) :
    Except String (Option Label) :=
  match best_match knn.index (to_terms features) number_of_matches with
  | Except.error e => Except.error e
  | Except.ok best => Except.ok (knn.labels.get? (to_size_t best.1))

/-- Replay of a sequence of `learn` calls. -/
def KNN.learn_all {Label : Type} : KNN Label → List (List Int × Label) → KNN Label
  | knn, [] => knn
  | knn, ex :: rest => KNN.learn_all (knn.learn ex.1 ex.2) rest

/-- The number of positions, within both vectors, at which two feature vectors agree. -/
def hamming_similarity (x v : List Int) : Nat :=
  (List.zip x v).countP (fun q => q.1 = q.2)

/-- The number of positions, within both vectors, at which two feature vectors agree
once the features are converted to `int`, as the keys store them. -/
def int_similarity (x v : List Int) : Nat :=
  hamming_similarity (x.map to_int) (v.map to_int)

/-- The terms of a vector of `int` features whose first position is `p`, positions not
wrapped. -/
def position_terms : List Int → Nat → List Key
  | [], _ => []
  | x :: rest, p => toLex (p, x) :: position_terms rest (p + 1)

/-- The learned example whose document id is `d`, if `d` is the number of a `learn` call. -/
def example_of_id {Label : Type} (exs : List (List Int × Label)) (d : Int) :
    Option (List Int × Label) :=
  if 0 ≤ d then exs[d.toNat]? else none

/-- The two learned examples of the round trip: `[1,0,1]` labelled "A" and `[1,1,1]`
labelled "B". -/
def sample_examples : List (List Int × String) :=
  [([1, 0, 1], "A"), ([1, 1, 1], "B")]

/-- Two learned examples whose first features differ by `2^32`: `[4294967297]` labelled
"A" and `[1]` labelled "B". -/
def wide_examples : List (List Int × String) :=
  [([4294967297], "A"), ([1], "B")]

section ContainerLemmas

variable {κ ν : Type} [LinearOrder κ]

theorem map_find_key {m : List (κ × ν)} {k : κ} {e : κ × ν} (h : map_find m k = some e) :
    e.1 = k := by
  induction m with
  | nil => simp [map_find] at h
  | cons x rest ih =>
    unfold map_find at h
    split at h
    · rename_i hk
      cases h
      exact hk.symm
    · exact ih h

theorem map_find_mem {m : List (κ × ν)} {k : κ} {e : κ × ν} (h : map_find m k = some e) :
    e ∈ m := by
  induction m with
  | nil => simp [map_find] at h
  | cons x rest ih =>
    unfold map_find at h
    split at h
    · cases h
      exact List.mem_cons_self _ _
    · exact List.mem_cons_of_mem _ (ih h)

theorem map_find_emplace (m : List (κ × ν)) (k j : κ) (v : ν) (h : map_find m k = none) :
    map_find (map_emplace m k v) j = if j = k then some (k, v) else map_find m j := by
  induction m with
  | nil => simp [map_emplace, map_find]
  | cons x rest ih =>
    unfold map_find at h
    split at h
    · cases h
    · rename_i hk
      unfold map_emplace
      by_cases hlt : k < x.1
      · simp only [hlt, if_true]
        by_cases hj : j = k
        · simp [map_find, hj]
        · simp [map_find, hj]
      · simp only [hlt, if_false]
        by_cases hjx : j = x.1
        · have hxk : ¬ x.1 = k := fun hx => hk hx.symm
          simp [map_find, hjx, hxk]
        · simp only [map_find, hjx, if_false]
          exact ih h

theorem map_find_store (m : List (κ × ν)) (k j : κ) (v : ν) :
    map_find (map_store m k v) j =
      if j = k then (map_find m k).map (fun e => (e.1, v)) else map_find m j := by
  induction m with
  | nil => simp [map_store, map_find]
  | cons x rest ih =>
    unfold map_store
    by_cases hk : k = x.1
    · subst hk
      by_cases hj : j = x.1
      · simp [map_find, hj]
      · simp [map_find, hj]
    · simp only [hk, if_false]
      by_cases hjx : j = x.1
      · have hxk : ¬ x.1 = k := fun hx => hk hx.symm
        simp [map_find, hjx, hxk]
      · by_cases hjk : j = k
        · subst hjk
          simp only [map_find, hjx, if_false, ih, if_true]
        · simp only [map_find, hjx, if_false, ih, hjk]

/-- Lookup after `m[k] = v`. -/
theorem map_find_store_subscript (m : List (κ × ν)) (k j : κ) (d v : ν) :
    map_find (map_store (map_subscript m k d) k v) j =
      if j = k then some (k, v) else map_find m j := by
  rw [map_find_store]
  by_cases hj : j = k
  · simp only [hj, if_true]
    unfold map_subscript
    cases hf : map_find m k with
    | none => simp [map_find_emplace m k k d hf]
    | some e => simp [hf, map_find_key hf]
  · simp only [hj, if_false]
    unfold map_subscript
    cases hf : map_find m k with
    | none => simp [map_find_emplace m k j d hf, hj]
    | some e => simp

/-- The value read through `m[k]` is the stored one, or the default. -/
theorem map_at_subscript (m : List (κ × ν)) (k : κ) (d : ν) :
    map_at (map_subscript m k d) k d = map_at m k d := by
  unfold map_at map_subscript
  cases hf : map_find m k with
  | none => simp [map_find_emplace m k k d hf]
  | some e => simp [hf]

theorem map_at_store_subscript (m : List (κ × ν)) (k j : κ) (d v : ν) :
    map_at (map_store (map_subscript m k d) k v) j d = if j = k then v else map_at m j d := by
  unfold map_at
  rw [map_find_store_subscript]
  by_cases hj : j = k
  · simp [hj]
  · simp [hj]

theorem map_store_keys (m : List (κ × ν)) (k : κ) (v : ν) :
    (map_store m k v).map Prod.fst = m.map Prod.fst := by
  induction m with
  | nil => rfl
  | cons x rest ih =>
    unfold map_store
    by_cases hk : k = x.1
    · simp [hk]
    · simp [hk, ih]

theorem map_emplace_perm (m : List (κ × ν)) (k : κ) (v : ν) :
    (map_emplace m k v).Perm ((k, v) :: m) := by
  induction m with
  | nil => exact List.Perm.refl _
  | cons x rest ih =>
    unfold map_emplace
    by_cases hk : k < x.1
    · simp [hk]
    · simp only [hk, if_false]
      exact (List.Perm.cons x ih).trans (List.Perm.swap _ _ _)

theorem map_find_eq_none_iff (m : List (κ × ν)) (k : κ) :
    map_find m k = none ↔ k ∉ m.map Prod.fst := by
  induction m with
  | nil => simp [map_find]
  | cons x rest ih =>
    unfold map_find
    by_cases hk : k = x.1
    · simp [hk]
    · simp [hk, ih]

theorem map_emplace_sorted (m : List (κ × ν)) (k : κ) (v : ν) (hs : map_sorted m)
    (hk : map_find m k = none) : map_sorted (map_emplace m k v) := by
  induction m with
  | nil => simp [map_emplace, map_sorted]
  | cons x rest ih =>
    unfold map_find at hk
    split at hk
    · cases hk
    · rename_i hne
      unfold map_sorted at hs
      rw [List.map_cons, List.pairwise_cons] at hs
      unfold map_emplace
      by_cases hlt : k < x.1
      · simp only [hlt, if_true]
        unfold map_sorted
        simp only [List.map_cons, List.pairwise_cons]
        refine ⟨?_, hs.1, hs.2⟩
        intro a ha
        rcases List.mem_cons.mp ha with h1 | h1
        · exact h1 ▸ hlt
        · exact lt_trans hlt (hs.1 a h1)
      · simp only [hlt, if_false]
        have hxk : x.1 < k := lt_of_le_of_ne (not_lt.mp hlt) (fun h => hne h.symm)
        unfold map_sorted
        rw [List.map_cons, List.pairwise_cons]
        refine ⟨?_, ih hs.2 hk⟩
        intro a ha
        have hperm := (map_emplace_perm rest k v).map Prod.fst
        have ha2 := hperm.mem_iff.mp ha
        rcases List.mem_cons.mp ha2 with h1 | h1
        · exact h1 ▸ hxk
        · exact hs.1 a h1

/-- The statement `m[k] = v` keeps the keys strictly ascending. -/
theorem map_store_subscript_sorted (m : List (κ × ν)) (k : κ) (d v : ν) (hs : map_sorted m) :
    map_sorted (map_store (map_subscript m k d) k v) := by
  unfold map_sorted
  rw [map_store_keys]
  unfold map_subscript
  cases hf : map_find m k with
  | none => exact map_emplace_sorted m k d hs hf
  | some e => exact hs

/-- In a map with ascending keys the entries are what `find` returns. -/
theorem map_mem_iff_find (m : List (κ × ν)) (hs : map_sorted m) (e : κ × ν) :
    e ∈ m ↔ map_find m e.1 = some e := by
  induction m with
  | nil => simp [map_find]
  | cons x rest ih =>
    unfold map_sorted at hs
    rw [List.map_cons, List.pairwise_cons] at hs
    unfold map_find
    by_cases hk : e.1 = x.1
    · simp only [hk, if_true, List.mem_cons, Option.some.injEq]
      constructor
      · intro h
        rcases h with h | h
        · exact h.symm
        · have := hs.1 e.1 (List.mem_map_of_mem Prod.fst h)
          rw [hk] at this
          exact absurd this (lt_irrefl _)
      · intro h
        exact Or.inl h.symm
    · simp only [hk, if_false, List.mem_cons]
      rw [← ih hs.2]
      constructor
      · intro h
        rcases h with h | h
        · exact absurd (h ▸ rfl) hk
        · exact h
      · intro h
        exact Or.inr h

end ContainerLemmas

/-! ## Insertion -/

section Insertion

variable {τ δ π : Type} [LinearOrder τ] [LinearOrder δ]

theorem postings_eq_of_find {idx : Index τ δ π} {t : τ} {e : τ × List (Posting δ π)}
    (h : map_find idx t = some e) : postings idx t = e.2 := by
  simp [postings, map_at, h]

theorem postings_of_find_none {idx : Index τ δ π} {t : τ}
    (h : map_find idx t = none) : postings idx t = [] := by
  simp [postings, map_at, h]

/-- Lookup after the appending overload. -/
theorem find_insert_posting_false (ops : PostingData τ δ π) (idx : Index τ δ π)
    (d : δ) (p : Nat) (t j : τ) :
    map_find (insert_posting_false ops idx d p t) j =
      if j = t then some (t, postings idx t ++ [Posting.mk d (ops.init d p t)])
      else map_find idx j := by
  unfold insert_posting_false
  simp only [map_find_store_subscript, map_at_subscript, postings]

/-- Lookup after the merging overload. -/
theorem find_insert_posting_true (ops : PostingData τ δ π) (idx : Index τ δ π)
    (d : δ) (p : Nat) (t j : τ) :
    map_find (insert_posting_true ops idx d p t) j =
      if j = t then
        some (t, match (postings idx t).getLast? with
          | some back =>
            if back.id = d then
              (postings idx t).dropLast ++ [Posting.mk back.id (ops.update back.data d p t)]
            else postings idx t ++ [Posting.mk d (ops.init d p t)]
          | none => postings idx t ++ [Posting.mk d (ops.init d p t)])
      else map_find idx j := by
  unfold insert_posting_true
  simp only [map_at_subscript, postings]
  cases hl : (map_at idx t []).getLast? with
  | none => simp only [map_find_store_subscript]
  | some back =>
    by_cases hb : back.id = d
    · simp only [hb, if_true, map_find_store_subscript]
    · simp only [hb, if_false, map_find_store_subscript]

theorem postings_insert_posting_false (ops : PostingData τ δ π) (idx : Index τ δ π)
    (d : δ) (p : Nat) (t j : τ) :
    postings (insert_posting false ops idx d p t) j =
      if j = t then postings idx t ++ [Posting.mk d (ops.init d p t)] else postings idx j := by
  have h := find_insert_posting_false ops idx d p t j
  by_cases hj : j = t
  · subst hj
    simp only [if_true] at h ⊢
    simpa [insert_posting] using postings_eq_of_find h
  · simp only [hj, if_false] at h ⊢
    simp only [postings, map_at, insert_posting, h, Bool.false_eq_true, if_false]

theorem postings_insert_posting_true (ops : PostingData τ δ π) (idx : Index τ δ π)
    (d : δ) (p : Nat) (t j : τ) :
    postings (insert_posting true ops idx d p t) j =
      if j = t then
        match (postings idx t).getLast? with
          | some back =>
            if back.id = d then
              (postings idx t).dropLast ++ [Posting.mk back.id (ops.update back.data d p t)]
            else postings idx t ++ [Posting.mk d (ops.init d p t)]
          | none => postings idx t ++ [Posting.mk d (ops.init d p t)]
      else postings idx j := by
  have h := find_insert_posting_true ops idx d p t j
  by_cases hj : j = t
  · subst hj
    simp only [if_true] at h ⊢
    simpa [insert_posting] using postings_eq_of_find h
  · simp only [hj, if_false] at h ⊢
    simp only [postings, map_at, insert_posting, h, if_true]

/-- Document ids after replaying appending calls: the old ids, then the ids of the calls
for the term, in call order. -/
theorem ids_insert_postings_false (ops : PostingData τ δ π) (calls : List (δ × Nat × τ))
    (idx : Index τ δ π) (t : τ) :
    (postings (insert_postings false ops idx calls) t).map Posting.id =
      (postings idx t).map Posting.id ++ (calls.filter (fun c => c.2.2 = t)).map (fun c => c.1) := by
  induction calls generalizing idx with
  | nil => simp [insert_postings]
  | cons c rest ih =>
    rw [insert_postings, ih, postings_insert_posting_false]
    by_cases hc : c.2.2 = t
    · simp [hc, List.filter_cons]
    · have hc2 : ¬ t = c.2.2 := fun h => hc h.symm
      simp [hc, hc2, List.filter_cons]

/-- C1: with the combine policy, `insert_posting(d, p, t)` keeps the length of the posting
list of `t` exactly when that list is non-empty and its last posting has id `d`; it then
replaces that last posting by its `update(d, p, t)`; otherwise it appends one posting
with id `d`. Only the last posting is looked at: `d1`, `d2`, `d1` for a new term gives
three postings. -/
theorem insert_posting_combine_iff_last (ops : PostingData τ δ π) (idx : Index τ δ π)
    (d : δ) (p : Nat) (t : τ) :
    ((postings (insert_posting true ops idx d p t) t).length = (postings idx t).length ↔
      ∃ back, (postings idx t).getLast? = some back ∧ back.id = d) ∧
    (∀ back, (postings idx t).getLast? = some back → back.id = d →
      map_find (insert_posting true ops idx d p t) t =
        some (t, (postings idx t).dropLast ++ [Posting.mk d (ops.update back.data d p t)])) ∧
    ((¬ ∃ back, (postings idx t).getLast? = some back ∧ back.id = d) →
      map_find (insert_posting true ops idx d p t) t =
        some (t, postings idx t ++ [Posting.mk d (ops.init d p t)])) ∧
    (∀ (d1 d2 : δ) (p1 p2 p3 : Nat), d1 ≠ d2 → postings idx t = [] →
      (postings (insert_posting true ops (insert_posting true ops
        (insert_posting true ops idx d1 p1 t) d2 p2 t) d1 p3 t) t).map Posting.id
        = [d1, d2, d1]) := by
  refine ⟨?_, ?_, ?_, ?_⟩
  · rw [postings_insert_posting_true]
    simp only [if_true]
    cases hl : (postings idx t).getLast? with
    | none => simp
    | some back =>
      have hne : postings idx t ≠ [] := by
        intro h0
        simp [h0] at hl
      by_cases hb : back.id = d
      · simp [hb]
        have := List.length_pos_of_ne_nil hne
        omega
      · simp [hb]
  · intro back hl hb
    simp [insert_posting, find_insert_posting_true, hl, hb]
  · intro hno
    simp only [insert_posting, if_true, find_insert_posting_true]
    cases hl : (postings idx t).getLast? with
    | none => rfl
    | some back =>
      have hb : ¬ back.id = d := fun hb => hno ⟨back, hl, hb⟩
      simp [hb]
  · intro d1 d2 p1 p2 p3 hd h0
    have hd2 : ¬ d2 = d1 := fun h => hd h.symm
    simp [postings_insert_posting_true, h0, hd, hd2]

/-- C2: without the combine policy, `insert_posting(d, p, t)` appends one posting with id
`d` to the posting list of `t`, which becomes a key, whatever the last posting is; so the
ids of the list of `t` are the old ids followed by the ids of the calls for `t` in call
order, and from the empty index exactly those. -/
theorem insert_posting_append_always (ops : PostingData τ δ π) (idx : Index τ δ π)
    (d : δ) (p : Nat) (t : τ) :
    map_find (insert_posting false ops idx d p t) t =
      some (t, postings idx t ++ [Posting.mk d (ops.init d p t)]) ∧
    (∀ calls : List (δ × Nat × τ),
      (postings (insert_postings false ops idx calls) t).map Posting.id =
        (postings idx t).map Posting.id ++
          (calls.filter (fun c => c.2.2 = t)).map (fun c => c.1)) ∧
    (∀ calls : List (δ × Nat × τ),
      (postings (insert_postings false ops [] calls) t).map Posting.id =
        (calls.filter (fun c => c.2.2 = t)).map (fun c => c.1)) ∧
    (∀ (d1 d2 : δ) (p1 p2 p3 : Nat),
      (postings (insert_postings false ops [] [(d1, p1, t), (d2, p2, t), (d1, p3, t)]) t).map
        Posting.id = [d1, d2, d1]) := by
  refine ⟨?_, ?_, ?_, ?_⟩
  · simp [insert_posting, find_insert_posting_false]
  · intro calls
    exact ids_insert_postings_false ops calls idx t
  · intro calls
    simpa [postings, map_at, map_find] using ids_insert_postings_false ops calls [] t
  · intro d1 d2 p1 p2 p3
    simpa [postings, map_at, map_find] using
      ids_insert_postings_false ops [(d1, p1, t), (d2, p2, t), (d1, p3, t)] [] t

theorem term_positions_eq_nil_iff (t : τ) (s : List τ) (pos : Nat) :
    term_positions t s pos = [] ↔ t ∉ s := by
  induction s generalizing pos with
  | nil => simp [term_positions]
  | cons u rest ih =>
    unfold term_positions
    by_cases hu : u = t
    · simp [hu]
    · have hu2 : ¬ t = u := fun h => hu h.symm
      simp [hu, hu2, ih]

/-- The merging loop on a list that already ends with a posting of `d`: every later
occurrence of the term updates that posting. -/
theorem find_insert_loop_open (ops : PostingData τ δ π) (d : δ) (t : τ) (s : List τ) :
    ∀ (pos : Nat) (idx : Index τ δ π) (qs : List (Posting δ π)) (x : π),
      map_find idx t = some (t, qs ++ [Posting.mk d x]) →
      map_find (insert_loop true ops d s pos idx) t =
        some (t, qs ++ [Posting.mk d
          ((term_positions t s pos).foldl (fun y p => ops.update y d p t) x)]) := by
  induction s with
  | nil =>
    intro pos idx qs x h
    simpa [insert_loop, term_positions] using h
  | cons u rest ih =>
    intro pos idx qs x h
    unfold insert_loop term_positions
    by_cases hu : u = t
    · subst hu
      simp only [if_true, List.foldl_cons]
      apply ih
      simp [insert_posting, find_insert_posting_true, postings_eq_of_find h]
    · have hu2 : ¬ t = u := fun h => hu h.symm
      simp only [hu, if_false]
      apply ih
      simp [insert_posting, find_insert_posting_true, hu2, h]

/-- The merging loop on a list that does not end with a posting of `d`: the first
occurrence of the term appends a posting, every later one updates it. -/
theorem find_insert_loop_fresh (ops : PostingData τ δ π) (d : δ) (t : τ) (s : List τ) :
    ∀ (pos : Nat) (idx : Index τ δ π),
      (∀ back, (postings idx t).getLast? = some back → back.id ≠ d) →
      map_find (insert_loop true ops d s pos idx) t =
        match term_positions t s pos with
        | [] => map_find idx t
        | p0 :: later => some (t, postings idx t ++ [Posting.mk d
            (later.foldl (fun y p => ops.update y d p t) (ops.init d p0 t))]) := by
  induction s with
  | nil =>
    intro pos idx h
    simp [insert_loop, term_positions]
  | cons u rest ih =>
    intro pos idx h
    unfold insert_loop term_positions
    by_cases hu : u = t
    · subst hu
      simp only [if_true]
      apply find_insert_loop_open
      simp only [insert_posting, if_true, find_insert_posting_true]
      cases hl : (postings idx u).getLast? with
      | none => rfl
      | some back => simp [h back hl]
    · have hu2 : ¬ t = u := fun h => hu h.symm
      simp only [hu, if_false]
      have hf : map_find (insert_posting true ops idx d pos u) t = map_find idx t := by
        simp [insert_posting, find_insert_posting_true, hu2]
      have hp : postings (insert_posting true ops idx d pos u) t = postings idx t := by
        simp [postings_insert_posting_true, hu2]
      rw [ih (pos + 1) (insert_posting true ops idx d pos u) (by rw [hp]; exact h), hf, hp]

/-- C3: with the merge policy, `insert(d, s)` on an index none of whose posting lists ends
with a posting of `d` leaves the list of every term outside `s` as it is and appends to the
list of every term of `s` exactly one posting with id `d`, created at the first occurrence
of the term and updated once for each later occurrence; `[a, a, b]` into the empty index
gives one posting for `a` (one update) and one for `b`. -/
theorem insert_merges_repeated_terms (ops : PostingData τ δ π) (idx : Index τ δ π)
    (d : δ) (s : List τ)
    (h : ∀ t back, (postings idx t).getLast? = some back → back.id ≠ d) :
    (insert true ops idx d s).2 = d ∧
    (∀ t, t ∉ s → map_find (insert true ops idx d s).1 t = map_find idx t) ∧
    (∀ t, t ∈ s → ∃ p0 later, term_positions t s 0 = p0 :: later ∧
      map_find (insert true ops idx d s).1 t =
        some (t, postings idx t ++ [Posting.mk d
          (later.foldl (fun y p => ops.update y d p t) (ops.init d p0 t))])) ∧
    (∀ a b : τ, a ≠ b →
      map_find (insert true ops [] d [a, a, b]).1 a =
        some (a, [Posting.mk d (ops.update (ops.init d 0 a) d 1 a)]) ∧
      map_find (insert true ops [] d [a, a, b]).1 b = some (b, [Posting.mk d (ops.init d 2 b)]) ∧
      ∀ t, t ≠ a → t ≠ b → map_find (insert true ops [] d [a, a, b]).1 t = none) := by
  refine ⟨rfl, ?_, ?_, ?_⟩
  · intro t ht
    have hpos := (term_positions_eq_nil_iff t s 0).mpr ht
    have := find_insert_loop_fresh ops d t s 0 idx (h t)
    simpa [insert, hpos] using this
  · intro t ht
    have hpos : term_positions t s 0 ≠ [] := fun h0 =>
      (term_positions_eq_nil_iff t s 0).mp h0 ht
    have := find_insert_loop_fresh ops d t s 0 idx (h t)
    cases hp : term_positions t s 0 with
    | nil => exact absurd hp hpos
    | cons p0 later =>
      refine ⟨p0, later, rfl, ?_⟩
      simpa [insert, hp] using this
  · intro a b hab
    have hba : ¬ b = a := fun h => hab h.symm
    have h0 : ∀ t back, (postings ([] : Index τ δ π) t).getLast? = some back → back.id ≠ d := by
      intro t back hb
      simp [postings, map_at, map_find] at hb
    refine ⟨?_, ?_, ?_⟩
    · have := find_insert_loop_fresh ops d a [a, a, b] 0 [] (h0 a)
      simpa [insert, term_positions, hba, postings, map_at, map_find] using this
    · have := find_insert_loop_fresh ops d b [a, a, b] 0 [] (h0 b)
      simpa [insert, term_positions, hab, postings, map_at, map_find] using this
    · intro t hta htb
      have := find_insert_loop_fresh ops d t [a, a, b] 0 [] (h0 t)
      have hat : ¬ a = t := fun h => hta h.symm
      have hbt : ¬ b = t := fun h => htb h.symm
      simpa [insert, term_positions, hat, hbt, map_find] using this

end Insertion

/-! ## Accumulation -/

section Accumulation

variable {τ δ π σ : Type} [LinearOrder τ] [LinearOrder δ] [Inhabited σ]

/-- Lookup after `Accumulator::update`. -/
theorem find_update (score : ScoreFunction τ δ π σ) (accu : Accu δ σ) (t : τ)
    (p : Posting δ π) (n : Nat) (j : δ) :
    map_find (Accumulator.update score accu t p n) j =
      if j = p.id then some (p.id, score (map_at accu p.id default) t p n)
      else map_find accu j := by
  unfold Accumulator.update
  simp only [map_find_store_subscript, map_at_subscript]

theorem update_sorted (score : ScoreFunction τ δ π σ) (accu : Accu δ σ) (t : τ)
    (p : Posting δ π) (n : Nat) (hs : map_sorted accu) :
    map_sorted (Accumulator.update score accu t p n) := by
  unfold Accumulator.update
  exact map_store_subscript_sorted accu p.id default _ hs

theorem update_ne_nil (score : ScoreFunction τ δ π σ) (accu : Accu δ σ) (t : τ)
    (p : Posting δ π) (n : Nat) : Accumulator.update score accu t p n ≠ [] := by
  intro h
  have hf := find_update score accu t p n p.id
  rw [h] at hf
  simp [map_find] at hf

theorem match_term_loop_eq_foldl (score : ScoreFunction τ δ π σ) (key : τ) (size : Nat)
    (ps : List (Posting δ π)) (accu : Accu δ σ) :
    match_term_loop score key size ps accu =
      ps.foldl (fun a p => Accumulator.update score a key p size) accu := by
  induction ps generalizing accu with
  | nil => rfl
  | cons p rest ih => simp only [match_term_loop, List.foldl_cons, ih]

/-- The accumulator after `match_term` is the fold of `update` over the hits of the term. -/
theorem match_term_eq_hits (score : ScoreFunction τ δ π σ) (idx : Index τ δ π) (t : τ)
    (accu : Accu δ σ) :
    match_term score idx t accu =
      ((postings idx t).map (fun p => (t, p, (postings idx t).length))).foldl
        (fun a h => Accumulator.update score a h.1 h.2.1 h.2.2) accu := by
  unfold match_term
  cases hf : map_find idx t with
  | none => simp [postings_of_find_none hf]
  | some e =>
    simp only [postings_eq_of_find hf, match_term_loop_eq_foldl, map_find_key hf,
      List.foldl_map]

/-- The accumulator after the query loop is the fold of `update` over the query hits. -/
theorem match_terms_eq_hits (score : ScoreFunction τ δ π σ) (idx : Index τ δ π)
    (query : List τ) (accu : Accu δ σ) :
    match_terms score idx query accu =
      (query_hits idx query).foldl
        (fun a h => Accumulator.update score a h.1 h.2.1 h.2.2) accu := by
  induction query generalizing accu with
  | nil => rfl
  | cons t rest ih =>
    simp only [match_terms, query_hits, List.foldl_append, ih, match_term_eq_hits]

theorem foldl_update_sorted (score : ScoreFunction τ δ π σ)
    (hits : List (τ × Posting δ π × Nat)) (accu : Accu δ σ) (hs : map_sorted accu) :
    map_sorted (hits.foldl (fun a h => Accumulator.update score a h.1 h.2.1 h.2.2) accu) := by
  induction hits generalizing accu with
  | nil => exact hs
  | cons h rest ih => exact ih _ (update_sorted score accu h.1 h.2.1 h.2.2 hs)

theorem foldl_update_eq_nil_iff (score : ScoreFunction τ δ π σ)
    (hits : List (τ × Posting δ π × Nat)) (accu : Accu δ σ) :
    hits.foldl (fun a h => Accumulator.update score a h.1 h.2.1 h.2.2) accu = [] ↔
      accu = [] ∧ hits = [] := by
  induction hits generalizing accu with
  | nil => simp
  | cons h rest ih =>
    rw [List.foldl_cons, ih]
    simp [update_ne_nil]

/-- The entry of document `d` after a sequence of `update` calls: untouched when no call
concerns `d`, otherwise the score function folded over the calls for `d`, in order. -/
theorem find_foldl_update (score : ScoreFunction τ δ π σ)
    (hits : List (τ × Posting δ π × Nat)) (accu : Accu δ σ) (d : δ) :
    map_find (hits.foldl (fun a h => Accumulator.update score a h.1 h.2.1 h.2.2) accu) d =
      if (hits.filter (fun h => h.2.1.id = d)).isEmpty then map_find accu d
      else some (d, (hits.filter (fun h => h.2.1.id = d)).foldl
        (fun s h => score s h.1 h.2.1 h.2.2) (map_at accu d default)) := by
  induction hits generalizing accu with
  | nil => simp
  | cons h rest ih =>
    rw [List.foldl_cons, ih]
    by_cases hd : h.2.1.id = d
    · have hfind : map_find (Accumulator.update score accu h.1 h.2.1 h.2.2) d =
          some (d, score (map_at accu d default) h.1 h.2.1 h.2.2) := by
        rw [find_update]
        simp [hd]
      have hat : map_at (Accumulator.update score accu h.1 h.2.1 h.2.2) d default =
          score (map_at accu d default) h.1 h.2.1 h.2.2 := by
        simp [map_at, hfind]
      rw [hfind, hat]
      simp only [List.filter_cons, hd, decide_True, if_true, List.foldl_cons]
      cases hr : rest.filter (fun h => h.2.1.id = d) with
      | nil => simp
      | cons y ys => simp
    · have hd2 : ¬ d = h.2.1.id := fun hh => hd hh.symm
      have hfind : map_find (Accumulator.update score accu h.1 h.2.1 h.2.2) d =
          map_find accu d := by
        rw [find_update]
        simp [hd2]
      have hat : map_at (Accumulator.update score accu h.1 h.2.1 h.2.2) d default =
          map_at accu d default := by
        simp [map_at, hfind]
      have hfl : (h :: rest).filter (fun h => h.2.1.id = d) =
          rest.filter (fun h => h.2.1.id = d) := by
        simp [List.filter_cons, hd]
      rw [hfind, hat, hfl]

theorem query_hits_eq_nil_iff (idx : Index τ δ π) (query : List τ) :
    query_hits idx query = [] ↔ ∀ t ∈ query, postings idx t = [] := by
  induction query with
  | nil => simp [query_hits]
  | cons t rest ih => simp [query_hits, ih]

theorem mem_query_hits (idx : Index τ δ π) (query : List τ) (h : τ × Posting δ π × Nat) :
    h ∈ query_hits idx query ↔
      h.1 ∈ query ∧ h.2.1 ∈ postings idx h.1 ∧ h.2.2 = (postings idx h.1).length := by
  induction query with
  | nil => simp [query_hits]
  | cons t rest ih =>
    simp only [query_hits, List.mem_append, List.mem_map, ih, List.mem_cons]
    constructor
    · rintro (⟨p, hp, rfl⟩ | ⟨h1, h2, h3⟩)
      · exact ⟨Or.inl rfl, hp, rfl⟩
      · exact ⟨Or.inr h1, h2, h3⟩
    · rintro ⟨h1 | h1, h2, h3⟩
      · left
        refine ⟨h.2.1, h1 ▸ h2, ?_⟩
        rw [← h1, ← h3]
      · exact Or.inr ⟨h1, h2, h3⟩

/-- Every posting list of a reachable index is non-empty. -/
theorem reachable_lists_ne_nil {combine : Bool} {ops : PostingData τ δ π}
    {idx : Index τ δ π} (hr : Reachable combine ops idx) :
    ∀ t e, map_find idx t = some e → e.2 ≠ [] := by
  induction hr with
  | empty =>
    intro t e h
    simp [map_find] at h
  | step idx0 d p term _ ih =>
    intro t e h
    cases combine with
    | false =>
      simp only [insert_posting, Bool.false_eq_true, if_false, find_insert_posting_false] at h
      by_cases ht : t = term
      · simp only [ht, if_true, Option.some.injEq] at h
        rw [← h]
        simp
      · simp only [ht, if_false] at h
        exact ih t e h
    | true =>
      simp only [insert_posting, if_true, find_insert_posting_true] at h
      by_cases ht : t = term
      · simp only [ht, if_true, Option.some.injEq] at h
        rw [← h]
        cases (postings idx0 term).getLast? with
        | none => simp
        | some back =>
          by_cases hb : back.id = d
          · simp [hb]
          · simp [hb]
      · simp only [ht, if_false] at h
        exact ih t e h

theorem reachable_postings_eq_nil_iff {combine : Bool} {ops : PostingData τ δ π}
    {idx : Index τ δ π} (hr : Reachable combine ops idx) (t : τ) :
    postings idx t = [] ↔ map_find idx t = none := by
  constructor
  · intro h
    cases hf : map_find idx t with
    | none => rfl
    | some e =>
      rw [postings_eq_of_find hf] at h
      exact absurd h (reachable_lists_ne_nil hr t e hf)
  · exact postings_of_find_none

/-- C10: `match_term(t, acc)` for a key `t` with posting list `ps` is `update(t, p, n)` for
each posting `p` of `ps` in list order, `n` being the length of the whole list; for a term
that is not a key it returns the accumulator unchanged. -/
theorem match_term_feeds_postings_in_order (score : ScoreFunction τ δ π σ)
    (idx : Index τ δ π) (t : τ) (accu : Accu δ σ) :
    (∀ ps, map_find idx t = some (t, ps) →
      match_term score idx t accu =
        ps.foldl (fun a p => Accumulator.update score a t p ps.length) accu) ∧
    (map_find idx t = none → match_term score idx t accu = accu) := by
  constructor
  · intro ps h
    simp only [match_term, h, match_term_loop_eq_foldl]
  · intro h
    simp only [match_term, h]

/-- The entry of a document after a query on a fresh accumulator. -/
theorem find_match_terms (score : ScoreFunction τ δ π σ) (idx : Index τ δ π)
    (query : List τ) (d : δ) :
    map_find (match_terms score idx query []) d =
      if (hits_of idx query d).isEmpty then none
      else some (d, fold_score score (hits_of idx query d)) := by
  rw [match_terms_eq_hits, find_foldl_update]
  simp [hits_of, fold_score, map_find, map_at]

theorem match_terms_sorted (score : ScoreFunction τ δ π σ) (idx : Index τ δ π)
    (query : List τ) : map_sorted (match_terms score idx query []) := by
  rw [match_terms_eq_hits]
  exact foldl_update_sorted score _ [] (by simp [map_sorted])

theorem hits_of_ne_nil_iff (idx : Index τ δ π) (query : List τ) (d : δ) :
    (hits_of idx query d).isEmpty = false ↔
      ∃ t ∈ query, ∃ p ∈ postings idx t, p.id = d := by
  constructor
  · intro h
    cases hh : hits_of idx query d with
    | nil => simp [hh] at h
    | cons x xs =>
      have hx : x ∈ hits_of idx query d := by simp [hh]
      unfold hits_of at hx
      rw [List.mem_filter] at hx
      have hq := (mem_query_hits idx query x).mp hx.1
      exact ⟨x.1, hq.1, x.2.1, hq.2.1, by simpa using hx.2⟩
  · rintro ⟨t, ht, p, hp, hd⟩
    have hx : (t, p, (postings idx t).length) ∈ hits_of idx query d := by
      unfold hits_of
      rw [List.mem_filter]
      exact ⟨(mem_query_hits idx query _).mpr ⟨ht, hp, rfl⟩, by simpa using hd⟩
    cases hh : hits_of idx query d with
    | nil => simp [hh] at hx
    | cons x xs => rfl

/-- C4: on an index a program can hold, `best_match(Q, score)` throws the empty-result
error exactly when no term of `Q` is a key of the index and returns a pair otherwise; the
empty query throws on every index. -/
theorem best_match_throws_iff_no_known_term (combine : Bool) (ops : PostingData τ δ π)
    [LT σ] [DecidableRel (fun (a b : σ) => a < b)]
    (idx : Index τ δ π) (hr : Reachable combine ops idx) (query : List τ)
    (score : ScoreFunction τ δ π σ) :
    (best_match idx query score = Except.error "No matching documents" ↔
      ∀ t ∈ query, map_find idx t = none) ∧
    ((∃ t ∈ query, map_find idx t ≠ none) → ∃ r, best_match idx query score = Except.ok r) ∧
    best_match idx [] score = Except.error "No matching documents" := by
  have key : match_terms score idx query [] = [] ↔ ∀ t ∈ query, map_find idx t = none := by
    rw [match_terms_eq_hits, foldl_update_eq_nil_iff, query_hits_eq_nil_iff]
    simp only [true_and]
    constructor
    · intro h t ht
      exact (reachable_postings_eq_nil_iff hr t).mp (h t ht)
    · intro h t ht
      exact (reachable_postings_eq_nil_iff hr t).mpr (h t ht)
  refine ⟨?_, ?_, rfl⟩
  · rw [← key]
    unfold best_match Accumulator.best_match
    cases match_terms score idx query [] with
    | nil => simp
    | cons x xs => simp
  · rintro ⟨t, ht, hne⟩
    have hacc : match_terms score idx query [] ≠ [] := fun h => hne (key.mp h t ht)
    unfold best_match Accumulator.best_match
    cases hm : match_terms score idx query [] with
    | nil => exact absurd hm hacc
    | cons x xs => exact ⟨_, rfl⟩

/-- C8: `match(Q, score, visit, 0)` calls `visit` in ascending document order, once for
each document that has a posting under some term of `Q` and for no other, with the score
function folded over the hits of that document. -/
theorem match_all_visits_each_matched_document [LinearOrder σ] (idx : Index τ δ π)
    (query : List τ) (score : ScoreFunction τ δ π σ) :
    ((match_ idx query score 0).map Prod.fst).Pairwise (fun a b => a < b) ∧
    (∀ d, d ∈ (match_ idx query score 0).map Prod.fst ↔
      ∃ t ∈ query, ∃ p ∈ postings idx t, p.id = d) ∧
    (∀ d s, (d, s) ∈ match_ idx query score 0 →
      s = fold_score score (hits_of idx query d)) := by
  have hv : match_ idx query score 0 = match_terms score idx query [] := by
    simp [match_, Accumulator.matches, Accumulator.all_matches]
  rw [hv]
  refine ⟨match_terms_sorted score idx query, ?_, ?_⟩
  · intro d
    rw [← hits_of_ne_nil_iff]
    have h1 := map_find_eq_none_iff (match_terms score idx query []) d
    rw [find_match_terms] at h1
    cases hh : (hits_of idx query d).isEmpty with
    | true =>
      simp only [hh, if_true, true_iff] at h1
      simp [h1]
    | false =>
      simp only [hh, Bool.false_eq_true, if_false] at h1
      simp only [iff_true]
      by_contra hc
      have := h1.mpr hc
      simp at this
  · intro d s hmem
    have h1 := (map_mem_iff_find _ (match_terms_sorted score idx query) (d, s)).mp hmem
    rw [find_match_terms] at h1
    cases hh : (hits_of idx query d).isEmpty with
    | true => simp [hh] at h1
    | false =>
      simp only [hh, Bool.false_eq_true, if_false, Option.some.injEq, Prod.mk.injEq] at h1
      exact h1.2.symm

end Accumulation

/-! ## Match counting on an index of merged documents -/

section MatchCounting

variable {τ δ π : Type} [LinearOrder τ] [LinearOrder δ]

theorem postings_congr {idx1 idx2 : Index τ δ π} {t : τ}
    (h : map_find idx1 t = map_find idx2 t) : postings idx1 t = postings idx2 t := by
  simp only [postings, map_at, h]

/-- A merging `insert_posting` for another document keeps the number of postings of `d`
in every list. -/
theorem id_count_insert_posting_other (ops : PostingData τ δ π) (idx : Index τ δ π)
    (d e : δ) (hne : e ≠ d) (p : Nat) (t j : τ) :
    id_count d (postings (insert_posting true ops idx e p t) j) =
      id_count d (postings idx j) := by
  rw [postings_insert_posting_true]
  by_cases hj : j = t
  · subst hj
    simp only [if_true]
    cases hl : (postings idx j).getLast? with
    | none => simp [id_count, List.countP_append, List.countP_cons, hne]
    | some back =>
      by_cases hb : back.id = e
      · have hsplit := List.dropLast_append_getLast? back hl
        have hbd : ¬ back.id = d := by
          rw [hb]
          exact hne
        simp only [hb, if_true]
        conv_rhs => rw [← hsplit]
        simp [id_count, List.countP_append, List.countP_cons, hne, hbd]
      · simp [hb, id_count, List.countP_append, List.countP_cons, hne]
  · simp [hj]

theorem id_count_insert_loop_other (ops : PostingData τ δ π) (d e : δ) (hne : e ≠ d)
    (s : List τ) (j : τ) :
    ∀ (pos : Nat) (idx : Index τ δ π),
      id_count d (postings (insert_loop true ops e s pos idx) j) =
        id_count d (postings idx j) := by
  induction s with
  | nil =>
    intro pos idx
    rfl
  | cons u rest ih =>
    intro pos idx
    rw [insert_loop, ih, id_count_insert_posting_other ops idx d e hne]

/-- Documents inserted under other ids keep the number of postings of `d` in every list. -/
theorem id_count_insert_documents_other (ops : PostingData τ δ π) (d : δ) (j : τ)
    (docs : List (δ × List τ)) :
    ∀ idx : Index τ δ π, d ∉ docs.map Prod.fst →
      id_count d (postings (insert_documents true ops idx docs) j) =
        id_count d (postings idx j) := by
  induction docs with
  | nil =>
    intro idx _
    rfl
  | cons doc rest ih =>
    intro idx hd
    simp only [List.map_cons, List.mem_cons, not_or] at hd
    rw [insert_documents, ih _ hd.2]
    exact id_count_insert_loop_other ops d doc.1 (fun h => hd.1 h.symm) doc.2 j 0 idx

/-- One merging `insert(d, s)` on an index without postings of `d`: afterwards `d` has one
posting under every term of `s` and none elsewhere. -/
theorem id_count_insert_own (ops : PostingData τ δ π) (idx : Index τ δ π) (d : δ)
    (s : List τ) (h0 : ∀ t, id_count d (postings idx t) = 0) (j : τ) :
    id_count d (postings (insert true ops idx d s).1 j) = if j ∈ s then 1 else 0 := by
  have hlast : ∀ back, (postings idx j).getLast? = some back → back.id ≠ d := by
    intro back hl hb
    have hmem : back ∈ postings idx j := List.mem_of_getLast?_eq_some hl
    have := h0 j
    unfold id_count at this
    rw [List.countP_eq_zero] at this
    exact absurd hb (by simpa using this back hmem)
  have hf := find_insert_loop_fresh ops d j s 0 idx hlast
  cases hp : term_positions j s 0 with
  | nil =>
    have hj : j ∉ s := (term_positions_eq_nil_iff j s 0).mp hp
    rw [hp] at hf
    simp only [insert, hj, if_false]
    rw [postings_congr hf]
    exact h0 j
  | cons p0 later =>
    have hj : j ∈ s := by
      by_contra hc
      rw [(term_positions_eq_nil_iff j s 0).mpr hc] at hp
      cases hp
    rw [hp] at hf
    simp only [insert, hj, if_true]
    rw [postings_eq_of_find hf]
    have := h0 j
    unfold id_count at this ⊢
    simp [List.countP_append, this]

/-- On an index built by merging one `insert` per document under distinct ids, a document
has one posting under each of its terms and none elsewhere. -/
theorem id_count_insert_documents (ops : PostingData τ δ π) (d : δ) (s : List τ) (j : τ)
    (docs : List (δ × List τ)) :
    ∀ idx : Index τ δ π, (docs.map Prod.fst).Nodup → (d, s) ∈ docs →
      (∀ t, id_count d (postings idx t) = 0) →
      id_count d (postings (insert_documents true ops idx docs) j) =
        if j ∈ s then 1 else 0 := by
  induction docs with
  | nil =>
    intro idx _ hm _
    simp at hm
  | cons doc rest ih =>
    intro idx hnd hm h0
    simp only [List.map_cons, List.nodup_cons] at hnd
    rw [insert_documents]
    rcases List.mem_cons.mp hm with h1 | h1
    · have hd : doc.1 = d := by rw [← h1]
      have hs : doc.2 = s := by rw [← h1]
      have hnot : d ∉ rest.map Prod.fst := hd ▸ hnd.1
      rw [id_count_insert_documents_other ops d j rest _ hnot, hd, hs]
      exact id_count_insert_own ops idx d s h0 j
    · have hne : doc.1 ≠ d := by
        intro hd
        exact hnd.1 (hd ▸ List.mem_map_of_mem Prod.fst h1)
      apply ih _ hnd.2 h1
      intro t
      rw [← h0 t]
      exact id_count_insert_loop_other ops d doc.1 hne doc.2 t 0 idx

/-- The number of hits of a document in a query: its postings under each query position. -/
theorem length_hits_of (idx : Index τ δ π) (d : δ) (query : List τ) :
    (hits_of idx query d).length = (query.map (fun t => id_count d (postings idx t))).sum := by
  induction query with
  | nil => rfl
  | cons t rest ih =>
    have := ih
    unfold hits_of at this ⊢
    simp only [query_hits, List.filter_append, List.length_append, List.map_cons,
      List.sum_cons, this]
    congr 1
    rw [List.filter_map, List.length_map]
    simp [id_count, List.countP_eq_length_filter, Function.comp_def]

theorem sum_indicator_eq_countP (s : List τ) (query : List τ) :
    (query.map (fun t => if t ∈ s then 1 else 0)).sum = query.countP (fun t => t ∈ s) := by
  induction query with
  | nil => rfl
  | cons t rest ih =>
    by_cases ht : t ∈ s
    · simp [ht, ih, List.countP_cons]
      omega
    · simp [ht, ih, List.countP_cons]

/-- The match counter never leaves the `int` range while the count stays below
`2^31`: it then counts the hits. -/
theorem foldl_number_of_matches (hits : List (τ × Posting δ π × Nat)) :
    ∀ v : Int, 0 ≤ v → v + hits.length < 2147483648 →
      hits.foldl (fun s h => number_of_matches s h.1 h.2.1 h.2.2) v = v + hits.length := by
  induction hits with
  | nil =>
    intro v _ _
    simp
  | cons h rest ih =>
    intro v hv hb
    simp only [List.length_cons, Nat.cast_add, Nat.cast_one] at hb
    have hstep : number_of_matches v h.1 h.2.1 h.2.2 = v + 1 := by
      unfold number_of_matches
      omega
    rw [List.foldl_cons, hstep, ih (v + 1) (by omega) (by omega)]
    simp only [List.length_cons, Nat.cast_add, Nat.cast_one]
    omega

/-- With the match counter, the entry of a document after a query holds the number of
its hits, as long as that number is below `2^31`. -/
theorem find_match_terms_number_of_matches (idx : Index τ δ π) (query : List τ) (d : δ)
    (hb : (hits_of idx query d).length < 2147483648) :
    map_find (match_terms number_of_matches idx query []) d =
      if (hits_of idx query d).length = 0 then none
      else some (d, ((hits_of idx query d).length : Int)) := by
  rw [find_match_terms]
  cases hh : hits_of idx query d with
  | nil => simp
  | cons x xs =>
    have hfold := foldl_number_of_matches (x :: xs) 0 (le_refl 0) (by
      rw [hh] at hb
      simp only [zero_add]
      exact_mod_cast hb)
    simp only [List.isEmpty_cons, Bool.false_eq_true, if_false, fold_score]
    have hd0 : (default : Int) = 0 := rfl
    rw [hd0, hfold]
    simp

theorem id_count_empty_index (d : δ) (t : τ) :
    id_count d (postings ([] : Index τ δ π) t) = 0 := by
  simp [postings, map_at, map_find, id_count]

/-- The number of hits of a document of a merged index: the query positions whose term
occurs in the document. -/
theorem length_hits_of_documents (ops : PostingData τ δ π) (docs : List (δ × List τ))
    (hnd : (docs.map Prod.fst).Nodup) (query : List τ) (d : δ) (s : List τ)
    (hm : (d, s) ∈ docs) :
    (hits_of (insert_documents true ops [] docs) query d).length =
      query.countP (fun t => t ∈ s) := by
  rw [length_hits_of, ← sum_indicator_eq_countP]
  congr 1
  apply List.map_congr_left
  intro t _
  exact id_count_insert_documents ops d s t docs [] hnd hm (fun u => id_count_empty_index d u)

/-- A document that was never inserted has no hit. -/
theorem hits_of_documents_other (ops : PostingData τ δ π) (docs : List (δ × List τ))
    (query : List τ) (d : δ) (hd : d ∉ docs.map Prod.fst) :
    hits_of (insert_documents true ops [] docs) query d = [] := by
  have hlen : (hits_of (insert_documents true ops [] docs) query d).length = 0 := by
    rw [length_hits_of]
    apply List.sum_eq_zero
    intro n hn
    obtain ⟨t, _, ht⟩ := List.mem_map.mp hn
    rw [← ht, id_count_insert_documents_other ops d t docs [] hd]
    exact id_count_empty_index d t
  exact List.length_eq_zero.mp hlen

/-- The match-counting score of a document of a merged index. -/
theorem find_match_count_documents (ops : PostingData τ δ π) (docs : List (δ × List τ))
    (hnd : (docs.map Prod.fst).Nodup) (query : List τ) (d : δ) (s : List τ)
    (hm : (d, s) ∈ docs) (hb : query.countP (fun t => t ∈ s) < 2147483648) :
    map_find (match_terms number_of_matches (insert_documents true ops [] docs) query []) d =
      if query.countP (fun t => t ∈ s) = 0 then none
      else some (d, (query.countP (fun t => t ∈ s) : Int)) := by
  have hlen := length_hits_of_documents ops docs hnd query d s hm
  rw [find_match_terms_number_of_matches _ _ _ (by rw [hlen]; exact hb), hlen]

theorem term_count_cons {τ : Type} [LinearOrder τ] (t u : τ) (s : List τ) :
    term_count t (u :: s) = term_count t s + if u = t then 1 else 0 := by
  by_cases h : u = t
  · simp [term_count, List.countP_cons, h]
  · simp [term_count, List.countP_cons, h]

theorem term_count_of_not_mem {τ : Type} [LinearOrder τ] (t : τ) (s : List τ) (h : t ∉ s) :
    term_count t s = 0 := by
  unfold term_count
  rw [List.countP_eq_zero]
  intro u hu
  have : ¬ u = t := fun hut => h (hut ▸ hu)
  simpa using this

theorem term_count_of_nodup {τ : Type} [LinearOrder τ] (t : τ) (s : List τ) (hs : s.Nodup) :
    term_count t s = if t ∈ s then 1 else 0 := by
  induction s with
  | nil => simp [term_count]
  | cons u rest ih =>
    rw [List.nodup_cons] at hs
    rw [term_count_cons, ih hs.2]
    by_cases hut : u = t
    · have hnot : t ∉ rest := hut ▸ hs.1
      simp [hut, hnot]
    · have htu : ¬ t = u := fun h => hut h.symm
      simp [hut, htu]

/-- The appending `insert(e, s)` adds to the postings of `d` under a term the number of
occurrences of the term in `s` when `e = d`, and nothing otherwise. -/
theorem id_count_insert_loop_false {τ δ π : Type} [LinearOrder τ] [LinearOrder δ]
    (ops : PostingData τ δ π) (d e : δ) (t : τ) (s : List τ) :
    ∀ (pos : Nat) (idx : Index τ δ π),
      id_count d (postings (insert_loop false ops e s pos idx) t) =
        id_count d (postings idx t) + (if e = d then term_count t s else 0) := by
  induction s with
  | nil =>
    intro pos idx
    simp [insert_loop, term_count]
  | cons u rest ih =>
    intro pos idx
    rw [insert_loop, ih, postings_insert_posting_false, term_count_cons]
    by_cases htu : t = u
    · subst htu
      by_cases hed : e = d
      · simp [hed, id_count, List.countP_append, List.countP_cons]
        omega
      · simp [hed, id_count, List.countP_append, List.countP_cons]
    · have hut : ¬ u = t := fun h => htu h.symm
      by_cases hed : e = d
      · simp [htu, hed, hut]
      · simp [htu, hed]

end MatchCounting

/-! ## Best match and ranking -/

section Ranking

variable {δ σ : Type} [LinearOrder δ] [LinearOrder σ]

/-- The scan returns the first entry of `best :: l` with the largest score: the entries in
front of it have a smaller score, the entries behind it no larger one. -/
theorem best_match_scan_split (l : List (δ × σ)) :
    ∀ best : δ × σ, ∃ front back, best :: l = front ++ best_match_scan best l :: back ∧
      (∀ a ∈ front, a.2 < (best_match_scan best l).2) ∧
      (∀ a ∈ back, a.2 ≤ (best_match_scan best l).2) := by
  induction l with
  | nil =>
    intro best
    exact ⟨[], [], rfl, by simp, by simp⟩
  | cons a rest ih =>
    intro best
    unfold best_match_scan
    by_cases hlt : best.2 < a.2
    · simp only [hlt, if_true]
      obtain ⟨front, back, heq, hf, hb⟩ := ih a
      refine ⟨best :: front, back, by rw [heq]; rfl, ?_, hb⟩
      have ha : a.2 ≤ (best_match_scan a rest).2 := by
        have hmem : a ∈ front ++ best_match_scan a rest :: back := by
          rw [← heq]
          exact List.mem_cons_self _ _
        rcases List.mem_append.mp hmem with h1 | h1
        · exact le_of_lt (hf a h1)
        · rcases List.mem_cons.mp h1 with h2 | h2
          · rw [← h2]
          · exact hb a h2
      intro x hx
      rcases List.mem_cons.mp hx with h1 | h1
      · rw [h1]
        exact lt_of_lt_of_le hlt ha
      · exact hf x h1
    · simp only [hlt, if_false]
      obtain ⟨front, back, heq, hf, hb⟩ := ih best
      cases front with
      | nil =>
        simp only [List.nil_append, List.cons.injEq] at heq
        refine ⟨[], a :: rest, by simp [← heq.1], by simp, ?_⟩
        intro x hx
        rcases List.mem_cons.mp hx with h1 | h1
        · rw [h1, ← heq.1]
          exact not_lt.mp hlt
        · exact hb x (heq.2 ▸ h1)
      | cons y ys =>
        simp only [List.cons_append, List.cons.injEq] at heq
        refine ⟨best :: a :: ys, back,
          by rw [List.cons_append, List.cons_append, ← heq.2], ?_, hb⟩
        have hbest : best.2 < (best_match_scan best rest).2 :=
          hf best (by rw [← heq.1]; exact List.mem_cons_self _ _)
        intro x hx
        rcases List.mem_cons.mp hx with h1 | h1
        · rw [h1]
          exact hbest
        · rcases List.mem_cons.mp h1 with h2 | h2
          · rw [h2]
            exact lt_of_le_of_lt (not_lt.mp hlt) hbest
          · exact hf x (List.mem_cons_of_mem _ h2)

/-- The result of `Accumulator::best_match` on a non-empty accumulator: an entry with the
largest score and, among those, the smallest document id. -/
theorem accumulator_best_match_spec (accu : Accu δ σ) (hs : map_sorted accu)
    (hne : accu ≠ []) :
    ∃ r, Accumulator.best_match accu = Except.ok r ∧ r ∈ accu ∧
      (∀ a ∈ accu, a.2 ≤ r.2) ∧ (∀ a ∈ accu, a.2 = r.2 → r.1 ≤ a.1) := by
  cases accu with
  | nil => exact absurd rfl hne
  | cons first tl =>
    have hstep : best_match_scan first (first :: tl) = best_match_scan first tl := by
      simp [best_match_scan]
    refine ⟨best_match_scan first tl, by simp [Accumulator.best_match, hstep], ?_⟩
    obtain ⟨front, back, heq, hf, hb⟩ := best_match_scan_split tl first
    have hmem : ∀ a, a ∈ first :: tl ↔
        a ∈ front ∨ a = best_match_scan first tl ∨ a ∈ back := by
      intro a
      rw [heq]
      simp
    refine ⟨(hmem _).mpr (Or.inr (Or.inl rfl)), ?_, ?_⟩
    · intro a ha
      rcases (hmem a).mp ha with h1 | h1 | h1
      · exact le_of_lt (hf a h1)
      · rw [h1]
      · exact hb a h1
    · intro a ha hsc
      rcases (hmem a).mp ha with h1 | h1 | h1
      · exact absurd hsc (ne_of_lt (hf a h1))
      · rw [h1]
      · unfold map_sorted at hs
        rw [heq, List.map_append, List.map_cons, List.pairwise_append] at hs
        have h2 := (List.pairwise_cons.mp hs.2.1).1 a.1 (List.mem_map_of_mem Prod.fst h1)
        exact le_of_lt h2

theorem multimap_insert_perm (l : List (σ × δ)) (x : σ × δ) :
    (multimap_insert l x).Perm (x :: l) := by
  induction l with
  | nil => exact List.Perm.refl _
  | cons e rest ih =>
    unfold multimap_insert
    by_cases hlt : x.1 < e.1
    · simp [hlt]
    · simp only [hlt, if_false]
      exact (List.Perm.cons e ih).trans (List.Perm.swap _ _ _)

theorem multimap_insert_sorted (l : List (σ × δ)) (x : σ × δ)
    (hs : l.Pairwise (fun a b => a.1 ≤ b.1)) :
    (multimap_insert l x).Pairwise (fun a b => a.1 ≤ b.1) := by
  induction l with
  | nil => simp [multimap_insert]
  | cons e rest ih =>
    rw [List.pairwise_cons] at hs
    unfold multimap_insert
    by_cases hlt : x.1 < e.1
    · simp only [hlt, if_true]
      refine List.pairwise_cons.mpr ⟨?_, List.pairwise_cons.mpr hs⟩
      intro a ha
      rcases List.mem_cons.mp ha with h1 | h1
      · rw [h1]
        exact le_of_lt hlt
      · exact le_trans (le_of_lt hlt) (hs.1 a h1)
    · simp only [hlt, if_false]
      refine List.pairwise_cons.mpr ⟨?_, ih hs.2⟩
      intro a ha
      rcases List.mem_cons.mp ((multimap_insert_perm rest x).mem_iff.mp ha) with h1 | h1
      · rw [h1]
        exact not_lt.mp hlt
      · exact hs.1 a h1

theorem ranking_fill_perm (accu : List (δ × σ)) (ranking : List (σ × δ)) :
    (ranking_fill accu ranking).Perm (accu.map swap_pair ++ ranking) := by
  induction accu generalizing ranking with
  | nil => exact List.Perm.refl _
  | cons a rest ih =>
    unfold ranking_fill
    refine (ih _).trans ?_
    refine (List.Perm.append_left _ (multimap_insert_perm ranking (swap_pair a))).trans ?_
    simp

theorem ranking_fill_sorted (accu : List (δ × σ)) (ranking : List (σ × δ))
    (hs : ranking.Pairwise (fun a b => a.1 ≤ b.1)) :
    (ranking_fill accu ranking).Pairwise (fun a b => a.1 ≤ b.1) := by
  induction accu generalizing ranking with
  | nil => exact hs
  | cons a rest ih => exact ih _ (multimap_insert_sorted ranking _ hs)

/-- The walk with a positive bound visits the first `k - i` entries. -/
theorem ranking_walk_eq_take (k : Int) (l : List (σ × δ)) :
    ∀ i : Int, 0 ≤ i → i ≤ k → k < 2147483648 →
      ranking_walk k l i = (l.take (k - i).toNat).map swap_pair := by
  induction l with
  | nil =>
    intro i _ _ _
    simp [ranking_walk]
  | cons r rest ih =>
    intro i h0 hi hk2
    unfold ranking_walk
    by_cases hik : i = k
    · simp [hik]
    · have hlt : i < k := lt_of_le_of_ne hi hik
      have hn : (k - i).toNat = (k - (i + 1)).toNat + 1 := by omega
      have hw : to_int (i + 1) = i + 1 := by
        unfold to_int
        omega
      simp only [ne_eq, hik, not_false_eq_true, if_true]
      rw [hw, ih (i + 1) (by omega) (by omega) hk2, hn, List.take_succ_cons, List.map_cons]

/-- The visits of `matches(out, k)` for a positive `k`: the first `k` entries of the
ranking read backwards, each swapped back. -/
theorem matches_eq_take (accu : Accu δ σ) (k : Int) (hk : 0 < k) (hk2 : k < 2147483648) :
    Accumulator.matches accu k =
      ((ranking_fill accu []).reverse.take k.toNat).map swap_pair := by
  unfold Accumulator.matches
  have hk0 : ¬ k = 0 := by omega
  simp only [hk0, if_false]
  rw [ranking_walk_eq_take k _ 0 (le_refl 0) (le_of_lt hk) hk2]
  simp

theorem swap_pair_swap_pair {α β : Type} (p : α × β) : swap_pair (swap_pair p) = p := rfl

/-- The reversed ranking, swapped back, is a rearrangement of the accumulator. -/
theorem ranking_reverse_perm (accu : Accu δ σ) :
    ((ranking_fill accu []).reverse.map swap_pair).Perm accu := by
  have h1 : ((ranking_fill accu []).reverse).Perm (accu.map swap_pair) := by
    refine (List.reverse_perm _).trans ?_
    simpa using ranking_fill_perm accu []
  have h2 := h1.map (fun p : σ × δ => swap_pair p)
  simpa [List.map_map, Function.comp_def, swap_pair_swap_pair] using h2

/-- The reversed ranking has descending scores. -/
theorem ranking_reverse_sorted (accu : Accu δ σ) :
    (ranking_fill accu []).reverse.Pairwise (fun a b => b.1 ≤ a.1) := by
  rw [List.pairwise_reverse]
  exact ranking_fill_sorted accu [] List.Pairwise.nil

theorem map_sorted_keys_nodup (accu : Accu δ σ) (hs : map_sorted accu) :
    (accu.map Prod.fst).Nodup :=
  List.Pairwise.imp (fun h => ne_of_lt h) hs

/-- C7: for a positive `int` `k`, `matches(out, k)` makes `min(k, n)` calls, each on an entry of
the accumulator and no two on the same document, with non-increasing scores, and every
entry left out has a score no larger than that of any visited entry. -/
theorem top_k_visits_k_highest_scores (accu : Accu δ σ) (hs : map_sorted accu) (k : Int)
    (hk : 0 < k) (hk2 : k < 2147483648) :
    ((Accumulator.matches accu k).length : Int) = min k (accu.length : Int) ∧
    (∀ v ∈ Accumulator.matches accu k, v ∈ accu) ∧
    ((Accumulator.matches accu k).map Prod.fst).Nodup ∧
    (Accumulator.matches accu k).Pairwise (fun a b => b.2 ≤ a.2) ∧
    (∀ e ∈ accu, e ∉ Accumulator.matches accu k →
      ∀ v ∈ Accumulator.matches accu k, e.2 ≤ v.2) := by
  have hperm := ranking_reverse_perm accu
  have hsorted := ranking_reverse_sorted accu
  have hlen : (ranking_fill accu []).reverse.length = accu.length := by
    simpa using hperm.length_eq
  rw [matches_eq_take accu k hk hk2]
  have hsub : (((ranking_fill accu []).reverse.take k.toNat).map swap_pair).Sublist
      ((ranking_fill accu []).reverse.map swap_pair) :=
    (List.take_sublist _ _).map _
  refine ⟨?_, ?_, ?_, ?_, ?_⟩
  · rw [List.length_map, List.length_take, hlen]
    omega
  · intro v hv
    exact hperm.mem_iff.mp (hsub.subset hv)
  · have hn : (((ranking_fill accu []).reverse.map swap_pair).map Prod.fst).Nodup :=
      (hperm.map Prod.fst).nodup_iff.mpr (map_sorted_keys_nodup accu hs)
    exact hn.sublist (hsub.map Prod.fst)
  · rw [List.pairwise_map]
    exact List.Pairwise.sublist (List.take_sublist _ _) hsorted
  · intro e he hnot v hv
    have he2 : e ∈ (ranking_fill accu []).reverse.map swap_pair := hperm.mem_iff.mpr he
    rw [← List.take_append_drop k.toNat (ranking_fill accu []).reverse, List.map_append,
      List.mem_append] at he2
    rcases he2 with h1 | h1
    · exact absurd h1 hnot
    · obtain ⟨b, hb, hbe⟩ := List.mem_map.mp h1
      obtain ⟨a, ha, hav⟩ := List.mem_map.mp hv
      have hpw := hsorted
      rw [← List.take_append_drop k.toNat (ranking_fill accu []).reverse,
        List.pairwise_append] at hpw
      have := hpw.2.2 a ha b hb
      rw [← hbe, ← hav]
      exact this

/-- C9: for a positive `int` `k` that is at least the number of entries, `matches(out, k)` visits
the same pairs as `matches(out)`, each once. -/
theorem top_k_complete_when_k_covers (accu : Accu δ σ) (hs : map_sorted accu) (k : Int)
    (hk : 0 < k) (hk2 : k < 2147483648) (hkn : (accu.length : Int) ≤ k) :
    (Accumulator.matches accu k).Perm (Accumulator.all_matches accu) ∧
    (Accumulator.all_matches accu).Nodup ∧
    (Accumulator.matches accu k).Nodup ∧
    (∀ v, v ∈ Accumulator.matches accu k ↔ v ∈ Accumulator.all_matches accu) := by
  have hperm := ranking_reverse_perm accu
  have hlen : (ranking_fill accu []).reverse.length = accu.length := by
    simpa using hperm.length_eq
  have hall : (Accumulator.matches accu k).Perm (Accumulator.all_matches accu) := by
    rw [matches_eq_take accu k hk hk2, List.take_of_length_le (by omega)]
    exact hperm
  have hnodup : (Accumulator.all_matches accu).Nodup :=
    List.Nodup.of_map Prod.fst (map_sorted_keys_nodup accu hs)
  exact ⟨hall, hnodup, hall.nodup_iff.mpr hnodup, fun v => hall.mem_iff⟩

end Ranking

/-! ## Best match on an index of merged documents -/

section BestMatchCounting

variable {τ δ π : Type} [LinearOrder τ] [LinearOrder δ]

/-- The example index `d1 = {x, y}`, `d2 = {x}`, `d3 = {y, y}` queried with `[x, y]`:
the scores are 2, 1 and 1 and the best match is `(d1, 2)`. -/
theorem best_match_three_documents (ops : PostingData τ δ π) (x y : τ) (d1 d2 d3 : δ)
    (hxy : x ≠ y) (hnd : [d1, d2, d3].Nodup) :
    best_match (insert_documents true ops [] [(d1, [x, y]), (d2, [x]), (d3, [y, y])])
        [x, y] number_of_matches = Except.ok (d1, 2) ∧
    map_find (match_terms number_of_matches
        (insert_documents true ops [] [(d1, [x, y]), (d2, [x]), (d3, [y, y])]) [x, y] []) d2 =
      some (d2, 1) ∧
    map_find (match_terms number_of_matches
        (insert_documents true ops [] [(d1, [x, y]), (d2, [x]), (d3, [y, y])]) [x, y] []) d3 =
      some (d3, 1) := by
  have hyx : ¬ y = x := fun h => hxy h.symm
  have hnd2 : (([(d1, [x, y]), (d2, [x]), (d3, [y, y])] : List (δ × List τ)).map
      Prod.fst).Nodup := by simpa using hnd
  have c1 : List.countP (fun t => decide (t ∈ [x, y])) [x, y] = 2 := by
    simp [List.countP_cons]
  have c2 : List.countP (fun t => decide (t ∈ [x])) [x, y] = 1 := by
    simp [List.countP_cons, hyx]
  have c3 : List.countP (fun t => decide (t ∈ [y, y])) [x, y] = 1 := by
    simp [List.countP_cons, hxy]
  have h1 := find_match_count_documents ops _ hnd2 [x, y] d1 [x, y] (by simp)
    (by rw [c1]; norm_num)
  have h2 := find_match_count_documents ops _ hnd2 [x, y] d2 [x] (by simp)
    (by rw [c2]; norm_num)
  have h3 := find_match_count_documents ops _ hnd2 [x, y] d3 [y, y] (by simp)
    (by rw [c3]; norm_num)
  rw [c1] at h1
  rw [c2] at h2
  rw [c3] at h3
  simp only [OfNat.ofNat_ne_zero, one_ne_zero, if_false, Nat.cast_ofNat, Nat.cast_one] at h1 h2 h3
  refine ⟨?_, h2, h3⟩
  have hsorted := match_terms_sorted (fun (a : Int) (b : τ) (c : Posting δ π) (n : Nat) =>
    number_of_matches a b c n)
    (insert_documents true ops [] [(d1, [x, y]), (d2, [x]), (d3, [y, y])]) [x, y]
  have hne : match_terms number_of_matches
      (insert_documents true ops [] [(d1, [x, y]), (d2, [x]), (d3, [y, y])]) [x, y] [] ≠ [] := by
    intro h0
    rw [h0] at h1
    simp [map_find] at h1
  obtain ⟨r, hr, hmem, hmax, _⟩ := accumulator_best_match_spec _ hsorted hne
  unfold best_match
  rw [hr]
  have hfr := (map_mem_iff_find _ hsorted r).mp hmem
  have h12 := hmax (d1, 2) ((map_mem_iff_find _ hsorted (d1, 2)).mpr h1)
  by_cases e1 : r.1 = d1
  · rw [e1, h1] at hfr
    rw [Option.some.inj hfr]
  · by_cases e2 : r.1 = d2
    · rw [e2, h2] at hfr
      rw [← Option.some.inj hfr] at h12
      simp at h12
    · by_cases e3 : r.1 = d3
      · rw [e3, h3] at hfr
        rw [← Option.some.inj hfr] at h12
        simp at h12
      · have hother : r.1 ∉ ([(d1, [x, y]), (d2, [x]), (d3, [y, y])] : List (δ × List τ)).map
            Prod.fst := by simp [e1, e2, e3]
        have hnone := hits_of_documents_other ops _ [x, y] r.1 hother
        rw [find_match_terms, hnone] at hfr
        simp at hfr

/-- C5: on a non-empty accumulator `best_match` returns an entry whose score is at least
every score and whose document id is the smallest among the entries with that score; for
`d1 = {x, y}`, `d2 = {x}`, `d3 = {y, y}` merged and the query `[x, y]` with the match
counter it returns `(d1, 2)`, the two others scoring 1. -/
theorem best_match_is_first_maximum {σ : Type} [LinearOrder σ] (ops : PostingData τ δ π)
    (accu : Accu δ σ) (hs : map_sorted accu) (hne : accu ≠ []) :
    (∃ r, Accumulator.best_match accu = Except.ok r ∧ r ∈ accu ∧
      (∀ a ∈ accu, a.2 ≤ r.2) ∧ (∀ a ∈ accu, a.2 = r.2 → r.1 ≤ a.1)) ∧
    (∀ (x y : τ) (d1 d2 d3 : δ), x ≠ y → [d1, d2, d3].Nodup →
      best_match (insert_documents true ops [] [(d1, [x, y]), (d2, [x]), (d3, [y, y])])
          [x, y] number_of_matches = Except.ok (d1, 2) ∧
      map_find (match_terms number_of_matches
          (insert_documents true ops [] [(d1, [x, y]), (d2, [x]), (d3, [y, y])]) [x, y] []) d2 =
        some (d2, 1) ∧
      map_find (match_terms number_of_matches
          (insert_documents true ops [] [(d1, [x, y]), (d2, [x]), (d3, [y, y])]) [x, y] []) d3 =
        some (d3, 1)) :=
  ⟨accumulator_best_match_spec accu hs hne,
    fun x y d1 d2 d3 hxy hnd => best_match_three_documents ops x y d1 d2 d3 hxy hnd⟩

/-- C6, as the code has it: on an index built by one merging `insert` per document under
distinct ids, the match-counting score of a document is the number of query positions
whose term occurs in the document, a repeated query term counting each time (counts
below `2^31`); a document without such a position, or never inserted, has no entry; for
a query without repetition the score is the number of distinct query terms that occur in
the document. -/
theorem match_count_is_matching_query_positions (ops : PostingData τ δ π)
    (docs : List (δ × List τ)) (hnd : (docs.map Prod.fst).Nodup) (query : List τ)
    (d : δ) (s : List τ) (hm : (d, s) ∈ docs)
    (hb : query.countP (fun t => t ∈ s) < 2147483648) :
    (map_find (match_terms number_of_matches (insert_documents true ops [] docs) query []) d =
      if query.countP (fun t => t ∈ s) = 0 then none
      else some (d, (query.countP (fun t => t ∈ s) : Int))) ∧
    (∀ e, e ∉ docs.map Prod.fst →
      map_find (match_terms number_of_matches (insert_documents true ops [] docs) query []) e =
        none) ∧
    (query.Nodup →
      map_find (match_terms number_of_matches (insert_documents true ops [] docs) query []) d =
        if (query.dedup.filter (fun t => t ∈ s)).length = 0 then none
        else some (d, ((query.dedup.filter (fun t => t ∈ s)).length : Int))) := by
  have hmain := find_match_count_documents ops docs hnd query d s hm hb
  refine ⟨hmain, ?_, ?_⟩
  · intro e he
    rw [find_match_terms, hits_of_documents_other ops docs query e he]
    simp
  · intro hq
    rw [hmain, List.Nodup.dedup hq, List.countP_eq_length_filter]

end BestMatchCounting

/-! ## Concrete instances -/

section Instances

/-- C3 at a concrete input: after document 1 with terms `[5, 6]`, document 2 with terms
`[5, 5, 9]` adds one posting under 5, created at position 0 and updated at position 1. -/
theorem insert_merges_repeated_terms_witness :
    (∀ (t : Nat) (back : Posting Nat (List Nat)),
      (postings (insert true position_log [] 1 [5, 6]).1 t).getLast? = some back →
        back.id ≠ 2) ∧
    map_find (insert true position_log (insert true position_log [] 1 [5, 6]).1 2 [5, 5, 9]).1 5
      = some (5, [Posting.mk 1 [0], Posting.mk 2 [0, 1]]) := by
  have hidx : (insert true position_log [] 1 [5, 6]).1 =
      [(5, [Posting.mk 1 [0]]), (6, [Posting.mk 1 [1]])] := by decide
  have hyp : ∀ (t : Nat) (back : Posting Nat (List Nat)),
      (postings (insert true position_log [] 1 [5, 6]).1 t).getLast? = some back →
        back.id ≠ 2 := by
    intro t back h
    rw [hidx] at h
    by_cases h5 : t = 5
    · subst h5
      simp [postings, map_at, map_find] at h
      rw [← h]
      decide
    · by_cases h6 : t = 6
      · subst h6
        simp [postings, map_at, map_find] at h
        rw [← h]
        decide
      · simp [postings, map_at, map_find, h5, h6] at h
  refine ⟨hyp, ?_⟩
  obtain ⟨p0, later, hpos, hfind⟩ :=
    (insert_merges_repeated_terms position_log (insert true position_log [] 1 [5, 6]).1 2
      [5, 5, 9] hyp).2.2.1 5 (by decide)
  have hp : term_positions 5 [5, 5, 9] 0 = [0, 1] := by decide
  rw [hp] at hpos
  cases hpos
  rw [hfind, hidx]
  decide

/-- C4 at a concrete input: the index holding one posting under term 5, queried with the
unknown term 7. -/
theorem best_match_throws_iff_no_known_term_witness :
    Reachable true (NoPostingData Nat Nat)
      (insert_posting true (NoPostingData Nat Nat) [] 1 0 5) ∧
    (best_match (insert_posting true (NoPostingData Nat Nat) [] 1 0 5) [7] number_of_matches
        = Except.error "No matching documents" ↔
      ∀ t ∈ [7], map_find (insert_posting true (NoPostingData Nat Nat) [] 1 0 5) t = none) :=
  ⟨Reachable.step [] 1 0 5 Reachable.empty,
    (best_match_throws_iff_no_known_term true (NoPostingData Nat Nat) _
      (Reachable.step [] 1 0 5 Reachable.empty) [7] number_of_matches).1⟩

/-- C5 at a concrete input: documents 2 and 3 tie with the largest score. -/
theorem best_match_is_first_maximum_witness :
    map_sorted ([(1, 2), (2, 5), (3, 5)] : Accu Nat Int) ∧
    ([(1, 2), (2, 5), (3, 5)] : Accu Nat Int) ≠ [] ∧
    ∃ r, Accumulator.best_match ([(1, 2), (2, 5), (3, 5)] : Accu Nat Int) = Except.ok r ∧
      r ∈ ([(1, 2), (2, 5), (3, 5)] : Accu Nat Int) ∧
      (∀ a ∈ ([(1, 2), (2, 5), (3, 5)] : Accu Nat Int), a.2 ≤ r.2) ∧
      (∀ a ∈ ([(1, 2), (2, 5), (3, 5)] : Accu Nat Int), a.2 = r.2 → r.1 ≤ a.1) :=
  ⟨by simp [map_sorted], by simp,
    (best_match_is_first_maximum (NoPostingData Nat Nat) [(1, 2), (2, 5), (3, 5)]
      (by simp [map_sorted]) (by simp)).1⟩

/-- C6 at a concrete input: document 1 with terms `[5, 6]` scores 3 on the query
`[5, 5, 6]`. -/
theorem match_count_is_matching_query_positions_witness :
    (([(1, [5, 6]), (2, [5, 5])] : List (Nat × List Nat)).map Prod.fst).Nodup ∧
    ((1, [5, 6]) : Nat × List Nat) ∈ ([(1, [5, 6]), (2, [5, 5])] : List (Nat × List Nat)) ∧
    ([5, 5, 6] : List Nat).countP (fun t => t ∈ [5, 6]) < 2147483648 ∧
    map_find (match_terms number_of_matches
      (insert_documents true (NoPostingData Nat Nat) [] [(1, [5, 6]), (2, [5, 5])])
      [5, 5, 6] []) 1 = some (1, 3) := by
  refine ⟨by decide, by decide, by decide, ?_⟩
  have h := (match_count_is_matching_query_positions (NoPostingData Nat Nat)
    [(1, [5, 6]), (2, [5, 5])] (by decide) [5, 5, 6] 1 [5, 6] (by decide) (by decide)).1
  have hc : ([5, 5, 6] : List Nat).countP (fun t => t ∈ [5, 6]) = 3 := by decide
  rw [hc] at h
  exact h

/-- C6 as stated fails: document 1 holds the term 5, the query `[5, 5]` has one distinct
term and gives the score 2. -/
theorem distinct_term_count_fails_on_repeated_query_term :
    map_find (match_terms number_of_matches
      (insert_documents true (NoPostingData Nat Nat) [] [(1, [5])]) [5, 5] []) 1 =
        some (1, 2) ∧
    ((([5, 5] : List Nat).dedup.filter (fun t => t ∈ [5])).length : Int) = 1 ∧
    map_find (match_terms number_of_matches
      (insert_documents true (NoPostingData Nat Nat) [] [(1, [5])]) [5, 5] []) 1 ≠
        some (1, ((([5, 5] : List Nat).dedup.filter (fun t => t ∈ [5])).length : Int)) := by
  decide

/-- C7 at a concrete input: three entries, `k = 2`. -/
theorem top_k_visits_k_highest_scores_witness :
    map_sorted ([(1, 2), (2, 5), (3, 5)] : Accu Nat Int) ∧ (0 : Int) < 2 ∧
    (2 : Int) < 2147483648 ∧
    ((Accumulator.matches ([(1, 2), (2, 5), (3, 5)] : Accu Nat Int) 2).length : Int) =
      min 2 (([(1, 2), (2, 5), (3, 5)] : Accu Nat Int).length : Int) :=
  ⟨by simp [map_sorted], by decide, by decide,
    (top_k_visits_k_highest_scores [(1, 2), (2, 5), (3, 5)] (by simp [map_sorted]) 2
      (by decide) (by decide)).1⟩

/-- C9 at a concrete input: three entries, `k = 5`. -/
theorem top_k_complete_when_k_covers_witness :
    map_sorted ([(1, 2), (2, 5), (3, 5)] : Accu Nat Int) ∧ (0 : Int) < 5 ∧
    (5 : Int) < 2147483648 ∧
    ((([(1, 2), (2, 5), (3, 5)] : Accu Nat Int).length : Int) ≤ 5) ∧
    (Accumulator.matches ([(1, 2), (2, 5), (3, 5)] : Accu Nat Int) 5).Perm
      (Accumulator.all_matches ([(1, 2), (2, 5), (3, 5)] : Accu Nat Int)) :=
  ⟨by simp [map_sorted], by decide, by decide, by decide,
    (top_k_complete_when_k_covers [(1, 2), (2, 5), (3, 5)] (by simp [map_sorted]) 5
      (by decide) (by decide) (by decide)).1⟩

end Instances

/-! ## Frame properties of update, queries and insertion -/

section Frames

variable {τ δ π σ : Type} [LinearOrder τ] [LinearOrder δ] [Inhabited σ]

/-- C11: `update(term, posting, n)` stores `score(c, term, posting, n)` under the document
of the posting, `c` being the stored score or, without an entry, the value-initialised
score (0 for `int`); every other document keeps its entry or its absence. -/
theorem update_sets_one_score (score : ScoreFunction τ δ π σ) (accu : Accu δ σ) (t : τ)
    (p : Posting δ π) (n : Nat) :
    (∀ c, map_find accu p.id = some (p.id, c) →
      map_find (Accumulator.update score accu t p n) p.id = some (p.id, score c t p n)) ∧
    (map_find accu p.id = none →
      map_find (Accumulator.update score accu t p n) p.id =
        some (p.id, score default t p n)) ∧
    (∀ j, j ≠ p.id → map_find (Accumulator.update score accu t p n) j = map_find accu j) ∧
    (default : Int) = 0 ∧
    (map_sorted accu → map_sorted (Accumulator.update score accu t p n) ∧
      ∀ e, e ∈ Accumulator.update score accu t p n ↔
        e = (p.id, score (map_at accu p.id default) t p n) ∨ (e ∈ accu ∧ e.1 ≠ p.id)) := by
  refine ⟨?_, ?_, ?_, rfl, ?_⟩
  · intro c hc
    rw [find_update]
    simp [map_at, hc]
  · intro hc
    rw [find_update]
    simp [map_at, hc]
  · intro j hj
    rw [find_update]
    simp [hj]
  · intro hs
    have hs2 := update_sorted score accu t p n hs
    refine ⟨hs2, ?_⟩
    intro e
    rw [map_mem_iff_find _ hs2, find_update, map_mem_iff_find _ hs]
    by_cases he : e.1 = p.id
    · simp only [he, if_true, Option.some.injEq, ne_eq, not_true_eq_false, and_false, or_false]
      exact eq_comm
    · simp only [he, if_false, ne_eq, not_false_eq_true, and_true]
      constructor
      · intro h
        exact Or.inr h
      · rintro (h | h)
        · exact absurd (by rw [h]) he
        · exact h

theorem match_term_state_eq (score : ScoreFunction τ δ π σ) (idx : Index τ δ π) (t : τ)
    (accu : Accu δ σ) :
    match_term_state score idx t accu = (idx, match_term score idx t accu) := by
  unfold match_term_state match_term
  cases map_find idx t with
  | none => rfl
  | some e => rfl

theorem match_terms_state_eq (score : ScoreFunction τ δ π σ) (idx : Index τ δ π)
    (query : List τ) (accu : Accu δ σ) :
    match_terms_state score idx query accu = (idx, match_terms score idx query accu) := by
  induction query generalizing accu with
  | nil => rfl
  | cons t rest ih =>
    simp only [match_terms_state, match_terms, match_term_state_eq, ih]

/-- C12: `best_match` and `match` hand the index back as it was, with the same keys and
posting lists and without an entry for an unknown query term; so a query run again on the
index it left gives the same result. -/
theorem queries_leave_index_unchanged [LinearOrder σ] (idx : Index τ δ π) (query : List τ)
    (score : ScoreFunction τ δ π σ) (k : Int) :
    (best_match_state idx query score).1 = idx ∧
    (match_state idx query score k).1 = idx ∧
    (∀ t, map_find idx t = none →
      map_find (best_match_state idx query score).1 t = none ∧
      map_find (match_state idx query score k).1 t = none) ∧
    (best_match_state (best_match_state idx query score).1 query score).2 =
      (best_match_state idx query score).2 ∧
    (match_state (match_state idx query score k).1 query score k).2 =
      (match_state idx query score k).2 ∧
    (best_match_state idx query score).2 = best_match idx query score ∧
    (match_state idx query score k).2 = match_ idx query score k := by
  have h1 : (best_match_state idx query score).1 = idx := by
    simp [best_match_state, match_terms_state_eq]
  have h2 : (match_state idx query score k).1 = idx := by
    simp [match_state, match_terms_state_eq]
  refine ⟨h1, h2, ?_, ?_, ?_, ?_, ?_⟩
  · intro t ht
    rw [h1, h2]
    exact ⟨ht, ht⟩
  · rw [h1]
  · rw [h2]
  · simp [best_match_state, best_match, match_terms_state_eq]
  · simp [match_state, match_, match_terms_state_eq]

/-- One `insert_posting` call, either policy: a key stays a key and the ids of every
posting list are extended at the end. -/
theorem insert_posting_grows (combine : Bool) (ops : PostingData τ δ π) (idx : Index τ δ π)
    (d : δ) (p : Nat) (t j : τ) :
    ((map_find idx j).isSome → (map_find (insert_posting combine ops idx d p t) j).isSome) ∧
    ∃ added, (postings (insert_posting combine ops idx d p t) j).map Posting.id =
      (postings idx j).map Posting.id ++ added := by
  cases combine with
  | false =>
    constructor
    · intro h
      simp only [insert_posting, Bool.false_eq_true, if_false, find_insert_posting_false]
      by_cases hj : j = t
      · simp [hj]
      · simpa [hj] using h
    · rw [postings_insert_posting_false]
      by_cases hj : j = t
      · exact ⟨[d], by simp [hj]⟩
      · exact ⟨[], by simp [hj]⟩
  | true =>
    constructor
    · intro h
      simp only [insert_posting, if_true, find_insert_posting_true]
      by_cases hj : j = t
      · simp [hj]
      · simpa [hj] using h
    · rw [postings_insert_posting_true]
      by_cases hj : j = t
      · subst hj
        simp only [if_true]
        cases hl : (postings idx j).getLast? with
        | none => exact ⟨[d], by simp⟩
        | some back =>
          by_cases hb : back.id = d
          · refine ⟨[], ?_⟩
            have hsplit := List.dropLast_append_getLast? back hl
            simp only [hb, if_true, List.append_nil]
            conv_rhs => rw [← hsplit]
            simp [hb]
          · exact ⟨[d], by simp [hb]⟩
      · exact ⟨[], by simp [hj]⟩

theorem insert_loop_grows (combine : Bool) (ops : PostingData τ δ π) (d : δ) (s : List τ)
    (j : τ) :
    ∀ (pos : Nat) (idx : Index τ δ π),
      ((map_find idx j).isSome → (map_find (insert_loop combine ops d s pos idx) j).isSome) ∧
      ∃ added, (postings (insert_loop combine ops d s pos idx) j).map Posting.id =
        (postings idx j).map Posting.id ++ added := by
  induction s with
  | nil =>
    intro pos idx
    exact ⟨fun h => h, [], by simp [insert_loop]⟩
  | cons u rest ih =>
    intro pos idx
    have h1 := insert_posting_grows combine ops idx d pos u j
    have h2 := ih (pos + 1) (insert_posting combine ops idx d pos u)
    obtain ⟨a1, ha1⟩ := h1.2
    obtain ⟨a2, ha2⟩ := h2.2
    refine ⟨fun h => h2.1 (h1.1 h), a1 ++ a2, ?_⟩
    rw [insert_loop, ha2, ha1, List.append_assoc]

/-- C13: under either policy `insert_posting(d, p, t)` and `insert(d, s)` keep every key
of the index, and the document ids of every posting list before the call are the
beginning of the ids after it: nothing is removed or reordered, new postings come last. -/
theorem insertion_only_appends (combine : Bool) (ops : PostingData τ δ π)
    (idx : Index τ δ π) (d : δ) (p : Nat) (t : τ) (s : List τ) :
    (∀ j, (map_find idx j).isSome → (map_find (insert_posting combine ops idx d p t) j).isSome) ∧
    (∀ j, ∃ added, (postings (insert_posting combine ops idx d p t) j).map Posting.id =
      (postings idx j).map Posting.id ++ added) ∧
    (∀ j, (map_find idx j).isSome → (map_find (insert combine ops idx d s).1 j).isSome) ∧
    (∀ j, ∃ added, (postings (insert combine ops idx d s).1 j).map Posting.id =
      (postings idx j).map Posting.id ++ added) :=
  ⟨fun j => (insert_posting_grows combine ops idx d p t j).1,
    fun j => (insert_posting_grows combine ops idx d p t j).2,
    fun j => (insert_loop_grows combine ops d s j 0 idx).1,
    fun j => (insert_loop_grows combine ops d s j 0 idx).2⟩

theorem adjacent_distinct_append_singleton (l : List δ) (d : δ) :
    adjacent_distinct (l ++ [d]) ↔
      adjacent_distinct l ∧ ∀ b, l.getLast? = some b → b ≠ d := by
  induction l with
  | nil => simp [adjacent_distinct]
  | cons a rest ih =>
    cases rest with
    | nil => simp [adjacent_distinct]
    | cons b more =>
      have hl : (a :: b :: more).getLast? = (b :: more).getLast? := by
        simp [List.getLast?_cons_cons]
      have hstep : adjacent_distinct (a :: b :: more ++ [d]) ↔
          a ≠ b ∧ adjacent_distinct (b :: more ++ [d]) := Iff.rfl
      have hstep2 : adjacent_distinct (a :: b :: more) ↔
          a ≠ b ∧ adjacent_distinct (b :: more) := Iff.rfl
      rw [hstep, hstep2, ih, hl]
      exact and_assoc.symm

theorem reachable_insert_loop {combine : Bool} {ops : PostingData τ δ π} (d : δ)
    (s : List τ) :
    ∀ (pos : Nat) (idx : Index τ δ π), Reachable combine ops idx →
      Reachable combine ops (insert_loop combine ops d s pos idx) := by
  induction s with
  | nil =>
    intro pos idx h
    exact h
  | cons u rest ih =>
    intro pos idx h
    exact ih (pos + 1) _ (Reachable.step idx d pos u h)

/-- With the merge policy no posting list of a reachable index has two neighbours of the
same document. -/
theorem reachable_adjacent_distinct {ops : PostingData τ δ π} {idx : Index τ δ π}
    (hr : Reachable true ops idx) (j : τ) :
    adjacent_distinct ((postings idx j).map Posting.id) := by
  induction hr with
  | empty => simp [postings, map_at, map_find, adjacent_distinct]
  | step idx0 d p t _ ih =>
    rw [postings_insert_posting_true]
    by_cases hj : j = t
    · subst hj
      simp only [if_true]
      cases hl : (postings idx0 j).getLast? with
      | none =>
        rw [List.map_append, List.map_singleton, adjacent_distinct_append_singleton]
        refine ⟨ih, ?_⟩
        intro b hb
        rw [List.getLast?_map, hl] at hb
        cases hb
      | some back =>
        by_cases hb : back.id = d
        · have hsplit := List.dropLast_append_getLast? back hl
          have hids : ((postings idx0 j).dropLast ++
              [Posting.mk back.id (ops.update back.data d p j)]).map Posting.id =
              (postings idx0 j).map Posting.id := by
            conv_rhs => rw [← hsplit]
            simp
          simp only [hb, if_true] at hids ⊢
          rw [hids]
          exact ih
        · simp only [hb, if_false]
          rw [List.map_append, List.map_singleton, adjacent_distinct_append_singleton]
          refine ⟨ih, ?_⟩
          intro b hb2
          rw [List.getLast?_map, hl] at hb2
          simp only [Option.map_some', Option.some.injEq] at hb2
          rw [← hb2]
          exact hb
    · simp only [hj, if_false]
      exact ih

/-- C20: on every index reached from the empty one by `insert_posting` and `insert`
calls, every stored posting list is non-empty, so a term is a key exactly when it has a
posting; and with the merge policy no two adjacent postings of a list have the same
document id. Insertion keeps an index reachable. -/
theorem reachable_index_invariants (combine : Bool) (ops : PostingData τ δ π)
    (idx : Index τ δ π) (hr : Reachable combine ops idx) :
    (∀ t e, map_find idx t = some e → e.2 ≠ []) ∧
    (∀ t, (map_find idx t).isSome ↔ postings idx t ≠ []) ∧
    (combine = true → ∀ t, adjacent_distinct ((postings idx t).map Posting.id)) ∧
    (∀ d p t, Reachable combine ops (insert_posting combine ops idx d p t)) ∧
    (∀ d s, Reachable combine ops (insert combine ops idx d s).1) := by
  refine ⟨reachable_lists_ne_nil hr, ?_, ?_, ?_, ?_⟩
  · intro t
    have h := reachable_postings_eq_nil_iff hr t
    cases hf : map_find idx t with
    | none => simp [h.mpr hf]
    | some e =>
      have hne : postings idx t ≠ [] := fun h0 => by
        rw [h.mp h0] at hf
        cases hf
      simp [hne]
  · intro hc t
    subst hc
    exact reachable_adjacent_distinct hr t
  · intro d p t
    exact Reachable.step idx d p t hr
  · intro d s
    exact reachable_insert_loop d s 0 idx hr

theorem to_int_succ_to_int (a : Int) : to_int (to_int a + 1) = to_int (a + 1) := by
  unfold to_int
  omega

/-- The match counter folded over a sequence of hits: the number of hits, wrapped into
the `int` range. -/
theorem foldl_number_of_matches_wrap (hits : List (τ × Posting δ π × Nat)) :
    ∀ a : Int, hits.foldl (fun s h => number_of_matches s h.1 h.2.1 h.2.2) (to_int a) =
      to_int (a + hits.length) := by
  induction hits with
  | nil =>
    intro a
    simp
  | cons h rest ih =>
    intro a
    have hstep : number_of_matches (to_int a) h.1 h.2.1 h.2.2 = to_int (a + 1) := by
      have h1 : number_of_matches (to_int a) h.1 h.2.1 h.2.2 = to_int (to_int a + 1) := rfl
      rw [h1, to_int_succ_to_int]
    rw [List.foldl_cons, hstep, ih (a + 1)]
    simp only [List.length_cons, Nat.cast_add, Nat.cast_one]
    congr 1
    omega

/-- With the match counter, the entry of a document after a query holds the number of
its hits wrapped into the `int` range. -/
theorem find_match_terms_number_of_matches_wrap (idx : Index τ δ π) (query : List τ)
    (d : δ) :
    map_find (match_terms number_of_matches idx query []) d =
      if (hits_of idx query d).length = 0 then none
      else some (d, to_int ((hits_of idx query d).length : Int)) := by
  rw [find_match_terms]
  cases hh : hits_of idx query d with
  | nil => simp
  | cons x xs =>
    have hfold := foldl_number_of_matches_wrap (x :: xs) 0
    have hd0 : (default : Int) = to_int 0 := rfl
    simp only [List.isEmpty_cons, Bool.false_eq_true, if_false, fold_score]
    rw [hd0, hfold]
    simp

/-- One document holding `n` unmerged postings of a term, queried with `n` copies of the
term: every query position contributes `n` postings. -/
theorem sum_id_count_replicate (ops : PostingData τ δ π) (d : δ) (t : τ) (n : Nat) :
    ((List.replicate n t).map (fun u => id_count d
      (postings (insert false ops [] d (List.replicate n t)).1 u))).sum = n * n := by
  have hcount : id_count d (postings (insert false ops [] d (List.replicate n t)).1 t) = n := by
    simp only [insert]
    rw [id_count_insert_loop_false, id_count_empty_index]
    simp [term_count, List.countP_replicate]
  rw [List.map_replicate, hcount, List.sum_replicate, smul_eq_mul]

/-- C18, as the code has it: with the match counter, on any index and for any query, the
entry of document `d` holds the sum over the query positions of the number of postings of
`d` in the list of the term at that position as long as the sum is below `2^31`; in
general it holds that sum wrapped into the range of the `int` score; and `d` has an entry
exactly when the sum is positive. -/
theorem match_count_sums_postings_per_position (idx : Index τ δ π) (query : List τ) (d : δ) :
    ((query.map (fun t => id_count d (postings idx t))).sum < 2147483648 →
      map_find (match_terms number_of_matches idx query []) d =
        if (query.map (fun t => id_count d (postings idx t))).sum = 0 then none
        else some (d, ((query.map (fun t => id_count d (postings idx t))).sum : Int))) ∧
    (map_find (match_terms number_of_matches idx query []) d =
      if (query.map (fun t => id_count d (postings idx t))).sum = 0 then none
      else some (d, to_int ((query.map (fun t => id_count d (postings idx t))).sum : Int))) ∧
    ((map_find (match_terms number_of_matches idx query []) d).isSome ↔
      0 < (query.map (fun t => id_count d (postings idx t))).sum) := by
  have hlen := length_hits_of idx d query
  have hw := find_match_terms_number_of_matches_wrap idx query d
  rw [hlen] at hw
  refine ⟨?_, hw, ?_⟩
  · intro hb
    have hf := find_match_terms_number_of_matches idx query d (by rw [hlen]; exact hb)
    rw [hlen] at hf
    exact hf
  · rw [hw]
    by_cases h0 : (query.map (fun t => id_count d (postings idx t))).sum = 0
    · simp [h0]
    · simp [h0]
      omega

/-- C18 as stated fails: document 1 holds 46341 unmerged postings of the term 5 and the
query repeats the term 46341 times; the sum over the query positions is 2147488281, the
entry holds -2147479015. -/
theorem match_count_leaves_int_range :
    ((List.replicate 46341 5).map (fun t => id_count 1 (postings
      (insert false (NoPostingData Nat Nat) [] 1 (List.replicate 46341 5)).1 t))).sum =
        2147488281 ∧
    map_find (match_terms number_of_matches
      (insert false (NoPostingData Nat Nat) [] 1 (List.replicate 46341 5)).1
      (List.replicate 46341 5) []) 1 = some (1, -2147479015) ∧
    map_find (match_terms number_of_matches
      (insert false (NoPostingData Nat Nat) [] 1 (List.replicate 46341 5)).1
      (List.replicate 46341 5) []) 1 ≠ some (1, 2147488281) := by
  have hsum := sum_id_count_replicate (NoPostingData Nat Nat) 1 5 46341
  have harith : 46341 * 46341 = 2147488281 := by decide
  rw [harith] at hsum
  have hw := find_match_terms_number_of_matches_wrap
    (insert false (NoPostingData Nat Nat) [] 1 (List.replicate 46341 5)).1
    (List.replicate 46341 5) 1
  rw [length_hits_of, hsum] at hw
  have hwrap : to_int ((2147488281 : Nat) : Int) = -2147479015 := by decide
  rw [if_neg (by decide), hwrap] at hw
  refine ⟨hsum, hw, ?_⟩
  rw [hw]
  decide

end Frames

/-! ## The order of the top-k walk -/

section TieBreak

variable {δ σ : Type} [LinearOrder δ] [LinearOrder σ]

end TieBreak

/-! ## The classifier: terms and stored postings -/

section KnnTerms

theorem to_int_of_lt (n : Int) (h0 : 0 ≤ n) (h1 : n < 2147483648) : to_int n = n := by
  unfold to_int
  omega

theorem to_size_t_natCast (p : Nat) (h : p < 2147483648) : to_size_t (p : Int) = p := by
  unfold to_size_t
  omega

/-- While the positions stay below `2^31` the loop of `to_terms` numbers them 0, 1, 2, … -/
theorem to_terms_loop_eq (v : List Int) :
    ∀ p : Nat, p + v.length ≤ 2147483648 →
      to_terms_loop v (p : Int) = position_terms (v.map to_int) p := by
  induction v with
  | nil =>
    intro p _
    rfl
  | cons x rest ih =>
    intro p hp
    simp only [List.length_cons] at hp
    rw [List.map_cons]
    unfold to_terms_loop position_terms
    rw [to_size_t_natCast p (by omega)]
    cases rest with
    | nil => rfl
    | cons y more =>
      simp only [List.length_cons] at hp
      rw [to_int_of_lt ((p : Int) + 1) (by omega) (by omega)]
      have hc : ((p : Int) + 1) = ((p + 1 : Nat) : Int) := by omega
      rw [hc, ih (p + 1) (by simp only [List.length_cons]; omega)]

theorem to_terms_eq (v : List Int) (h : v.length ≤ 2147483648) :
    to_terms v = position_terms (v.map to_int) 0 := by
  have := to_terms_loop_eq v 0 (by omega)
  simpa [to_terms] using this

theorem position_terms_le (v : List Int) :
    ∀ (p : Nat) (t : Key), t ∈ position_terms v p → p ≤ (ofLex t).1 := by
  induction v with
  | nil =>
    intro p t h
    simp [position_terms] at h
  | cons x rest ih =>
    intro p t h
    unfold position_terms at h
    rcases List.mem_cons.mp h with h1 | h1
    · rw [h1]
      simp
    · have := ih (p + 1) t h1
      omega

theorem position_terms_nodup (v : List Int) : ∀ p : Nat, (position_terms v p).Nodup := by
  induction v with
  | nil =>
    intro p
    simp [position_terms]
  | cons x rest ih =>
    intro p
    unfold position_terms
    refine List.nodup_cons.mpr ⟨?_, ih (p + 1)⟩
    intro h
    have := position_terms_le rest (p + 1) _ h
    simp at this

/-- The terms two vectors share, counted over the positions of the second, are the
positions at which they agree. -/
theorem sum_count_position_terms (v : List Int) :
    ∀ (x : List Int) (p : Nat),
      ((position_terms v p).map (fun t => term_count t (position_terms x p))).sum =
        hamming_similarity x v := by
  induction v with
  | nil =>
    intro x p
    simp [position_terms, hamming_similarity]
  | cons a rest ih =>
    intro x p
    cases x with
    | nil => simp [position_terms, hamming_similarity, term_count]
    | cons b more =>
      have hnot : (toLex (p, a) : Key) ∉ position_terms more (p + 1) := by
        intro h
        have := position_terms_le more (p + 1) _ h
        simp at this
      have hrest : ∀ t ∈ position_terms rest (p + 1),
          term_count t (position_terms (b :: more) p) =
            term_count t (position_terms more (p + 1)) := by
        intro t ht
        have hle := position_terms_le rest (p + 1) t ht
        have hne : ¬ (toLex (p, b) : Key) = t := by
          intro h
          rw [← h] at hle
          simp at hle
        simp only [position_terms]
        rw [term_count_cons]
        simp [hne]
      have hfirst : term_count (toLex (p, a) : Key) (position_terms (b :: more) p) =
          if b = a then 1 else 0 := by
        simp only [position_terms]
        rw [term_count_cons, term_count_of_not_mem _ _ hnot, zero_add]
        by_cases hba : b = a
        · simp [hba]
        · have : ¬ (toLex (p, b) : Key) = toLex (p, a) := by
            intro h
            exact hba (by simpa using h)
          simp [hba, this]
      have hsum : ((position_terms rest (p + 1)).map
          (fun t => term_count t (position_terms (b :: more) p))).sum =
          ((position_terms rest (p + 1)).map
            (fun t => term_count t (position_terms more (p + 1)))).sum := by
        congr 1
        exact List.map_congr_left hrest
      have hcons : position_terms (a :: rest) p =
          toLex (p, a) :: position_terms rest (p + 1) := rfl
      rw [hcons, List.map_cons, List.sum_cons, hfirst, hsum, ih more (p + 1)]
      simp only [hamming_similarity, List.zip_cons_cons, List.countP_cons]
      by_cases hba : b = a
      · simp [hba]
        omega
      · simp [hba]

theorem learn_all_append {Label : Type} (a b : List (List Int × Label)) :
    ∀ knn : KNN Label, knn.learn_all (a ++ b) = (knn.learn_all a).learn_all b := by
  induction a with
  | nil =>
    intro knn
    rfl
  | cons x rest ih =>
    intro knn
    exact ih (knn.learn x.1 x.2)

theorem learn_all_labels {Label : Type} (exs : List (List Int × Label)) :
    ∀ knn : KNN Label, (knn.learn_all exs).labels = knn.labels ++ exs.map Prod.snd := by
  induction exs with
  | nil =>
    intro knn
    simp [KNN.learn_all]
  | cons x rest ih =>
    intro knn
    simp [KNN.learn_all, ih, KNN.learn]

theorem example_of_id_append_singleton {Label : Type} (exs : List (List Int × Label))
    (ex : List Int × Label) (d : Int) :
    example_of_id (exs ++ [ex]) d =
      if d = (exs.length : Int) then some ex else example_of_id exs d := by
  unfold example_of_id
  by_cases h0 : 0 ≤ d
  · simp only [h0, if_true]
    by_cases hd : d = (exs.length : Int)
    · have : d.toNat = exs.length := by omega
      simp [hd]
    · simp only [hd, if_false]
      by_cases hlt : d.toNat < exs.length
      · rw [List.getElem?_append_left hlt]
      · have hgt : exs.length < d.toNat := by omega
        rw [List.getElem?_eq_none (by simp; omega), List.getElem?_eq_none (by omega)]
  · have hd : ¬ d = (exs.length : Int) := by omega
    simp [h0, hd]

/-- The postings of document `d` under a term, after the `learn` calls for `exs` on a
fresh classifier (at most `2^31` calls): the occurrences of the term in the terms of the
example with id `d`, and none for an id that is not the number of a call. -/
theorem knn_id_count {Label : Type} (exs : List (List Int × Label))
    (hn : exs.length ≤ 2147483648) (t : Key) (d : Int) :
    id_count d (postings ((KNN.empty : KNN Label).learn_all exs).index t) =
      match example_of_id exs d with
      | some ex => term_count t (to_terms ex.1)
      | none => 0 := by
  induction exs using List.reverseRecOn with
  | nil =>
    simp [KNN.learn_all, KNN.empty, example_of_id, id_count_empty_index]
  | append_singleton exs ex ih =>
    simp only [List.length_append, List.length_singleton] at hn
    have ih2 := ih (by omega)
    have hlab : ((KNN.empty : KNN Label).learn_all exs).labels.length = exs.length := by
      simp [learn_all_labels, KNN.empty]
    have hid : to_int (((((KNN.empty : KNN Label).learn_all exs).labels ++ [ex.2]).length
        - 1 : Nat) : Int) = (exs.length : Int) := by
      rw [List.length_append, hlab]
      simp only [List.length_singleton, Nat.add_sub_cancel]
      exact to_int_of_lt _ (by omega) (by omega)
    rw [learn_all_append]
    simp only [KNN.learn_all, KNN.learn, insert, hid]
    rw [id_count_insert_loop_false, ih2, example_of_id_append_singleton]
    by_cases hd : d = (exs.length : Int)
    · have hnone : example_of_id exs d = none := by
        unfold example_of_id
        have : exs.length ≤ d.toNat := by omega
        simp [List.getElem?_eq_none this]
      rw [hnone]
      subst hd
      simp
    · have hd2 : ¬ (exs.length : Int) = d := fun h => hd h.symm
      simp [hd, hd2]

theorem example_of_id_some {Label : Type} {exs : List (List Int × Label)} {d : Int}
    {ex : List Int × Label} (h : example_of_id exs d = some ex) :
    0 ≤ d ∧ d.toNat < exs.length ∧ exs[d.toNat]? = some ex ∧ ex ∈ exs := by
  unfold example_of_id at h
  by_cases h0 : 0 ≤ d
  · simp only [h0, if_true] at h
    obtain ⟨hlt, hget⟩ := List.getElem?_eq_some_iff.mp h
    exact ⟨h0, hlt, h, hget ▸ List.getElem_mem hlt⟩
  · simp [h0] at h

theorem example_of_id_natCast {Label : Type} (exs : List (List Int × Label)) (i : Nat) :
    example_of_id exs (i : Int) = exs[i]? := by
  simp [example_of_id]

theorem to_int_of_range (a : Int) (h : -2147483648 ≤ a ∧ a < 2147483648) : to_int a = a := by
  unfold to_int
  omega

theorem map_to_int_of_range (x : List Int)
    (h : ∀ a ∈ x, -2147483648 ≤ a ∧ a < 2147483648) : x.map to_int = x := by
  induction x with
  | nil => rfl
  | cons a rest ih =>
    rw [List.map_cons, to_int_of_range a (h a (List.mem_cons_self _ _)),
      ih (fun b hb => h b (List.mem_cons_of_mem _ hb))]

theorem hamming_similarity_le (x v : List Int) : hamming_similarity x v ≤ v.length := by
  unfold hamming_similarity
  refine le_trans (List.countP_le_length _) ?_
  simp

/-- The number of hits of document `d` for a query vector: the similarity of the example
with id `d` to the vector. -/
theorem knn_length_hits_of {Label : Type} (exs : List (List Int × Label))
    (hn : exs.length ≤ 2147483648) (hx : ∀ ex ∈ exs, ex.1.length ≤ 2147483648)
    (v : List Int) (hv : v.length ≤ 2147483648) (d : Int) :
    (hits_of ((KNN.empty : KNN Label).learn_all exs).index (to_terms v) d).length =
      match example_of_id exs d with
      | some ex => int_similarity ex.1 v
      | none => 0 := by
  rw [length_hits_of]
  cases he : example_of_id exs d with
  | none =>
    apply List.sum_eq_zero
    intro n hmem
    obtain ⟨t, _, ht⟩ := List.mem_map.mp hmem
    rw [← ht, knn_id_count exs hn t d, he]
  | some ex =>
    have hex := (example_of_id_some he).2.2.2
    have hmap : (to_terms v).map
        (fun t => id_count d (postings ((KNN.empty : KNN Label).learn_all exs).index t)) =
        (position_terms (v.map to_int) 0).map
          (fun t => term_count t (position_terms (ex.1.map to_int) 0)) := by
      rw [to_terms_eq v hv]
      apply List.map_congr_left
      intro t _
      rw [knn_id_count exs hn t d, he]
      simp only [to_terms_eq ex.1 (hx ex hex)]
    rw [hmap]
    exact sum_count_position_terms (v.map to_int) (ex.1.map to_int) 0

/-- The accumulator entry of document `d` for a query vector. -/
theorem knn_find_score {Label : Type} (exs : List (List Int × Label))
    (hn : exs.length ≤ 2147483648) (hx : ∀ ex ∈ exs, ex.1.length ≤ 2147483648)
    (v : List Int) (hv : v.length < 2147483648) (d : Int) :
    map_find (match_terms number_of_matches ((KNN.empty : KNN Label).learn_all exs).index
      (to_terms v) []) d =
      match example_of_id exs d with
      | some ex =>
        if int_similarity ex.1 v = 0 then none
        else some (d, (int_similarity ex.1 v : Int))
      | none => none := by
  have hlen := knn_length_hits_of exs hn hx v (le_of_lt hv) d
  have hb : (hits_of ((KNN.empty : KNN Label).learn_all exs).index (to_terms v) d).length
      < 2147483648 := by
    rw [hlen]
    cases example_of_id exs d with
    | none => simp
    | some ex =>
      refine lt_of_le_of_lt (hamming_similarity_le _ _) ?_
      rw [List.length_map]
      exact hv
  rw [find_match_terms_number_of_matches _ _ _ hb, hlen]
  cases example_of_id exs d with
  | none => simp
  | some ex => rfl

/-- Every posting stored by the classifier carries the number of a `learn` call. -/
theorem knn_posting_id_range {Label : Type} (exs : List (List Int × Label))
    (hn : exs.length ≤ 2147483648) (t : Key) (p : Posting Int Unit)
    (hp : p ∈ postings ((KNN.empty : KNN Label).learn_all exs).index t) :
    0 ≤ p.id ∧ p.id < (exs.length : Int) := by
  have hpos : 0 < id_count p.id (postings ((KNN.empty : KNN Label).learn_all exs).index t) := by
    unfold id_count
    rw [List.countP_pos_iff]
    exact ⟨p, hp, by simp⟩
  rw [knn_id_count exs hn t p.id] at hpos
  cases he : example_of_id exs p.id with
  | none => simp [he] at hpos
  | some ex =>
    have := example_of_id_some he
    omega

end KnnTerms

/-! ## The classifier: nearest neighbour and state invariant -/

section KnnClaims

variable {Label : Type}

/-- C14, as the code has it: the keys store each feature converted to `int`, so two
features agree when their `int` values do. After the `learn` calls for `exs` on a fresh
classifier (at most `2^31` calls, vectors of at most `2^31` positions), for a query vector
of fewer than `2^31` positions that agrees with some example at some position, `classify`
returns the label of the example with the smallest index among those with the largest
number of agreeing positions; for features inside the `int` range agreement is equality of
the features themselves; after `learn([1,0,1], "A")` and `learn([1,1,1], "B")` the vector
`[1,0,1]` gets "A", at similarity 3. -/
theorem classify_is_hamming_nearest_neighbour (exs : List (List Int × Label)) (v : List Int)
    (hn : exs.length ≤ 2147483648) (hx : ∀ ex ∈ exs, ex.1.length ≤ 2147483648)
    (hv : v.length < 2147483648) (hsome : ∃ ex ∈ exs, 0 < int_similarity ex.1 v) :
    (∃ (j : Nat) (ex : List Int × Label), exs[j]? = some ex ∧
      ((KNN.empty : KNN Label).learn_all exs).classify v = Except.ok (some ex.2) ∧
      (∀ (i : Nat) (ei : List Int × Label), exs[i]? = some ei →
        int_similarity ei.1 v ≤ int_similarity ex.1 v) ∧
      (∀ (i : Nat) (ei : List Int × Label), exs[i]? = some ei →
        int_similarity ei.1 v = int_similarity ex.1 v → j ≤ i)) ∧
    ((((KNN.empty : KNN String).learn [1, 0, 1] "A").learn [1, 1, 1] "B").classify [1, 0, 1] =
        Except.ok (some "A") ∧
      int_similarity [1, 0, 1] [1, 0, 1] = 3 ∧ int_similarity [1, 1, 1] [1, 0, 1] = 2) ∧
    (∀ x w : List Int, (∀ a ∈ x, -2147483648 ≤ a ∧ a < 2147483648) →
      (∀ a ∈ w, -2147483648 ≤ a ∧ a < 2147483648) →
      int_similarity x w = hamming_similarity x w) := by
  refine ⟨?_, ⟨rfl, by decide, by decide⟩, fun x w hx2 hw2 => by
    rw [int_similarity, map_to_int_of_range x hx2, map_to_int_of_range w hw2]⟩
  have hfind := knn_find_score exs hn hx v hv
  have hsorted := match_terms_sorted (fun (s : Int) (t : Key) (p : Posting Int Unit) (n : Nat) =>
    number_of_matches s t p n) ((KNN.empty : KNN Label).learn_all exs).index (to_terms v)
  have hentry : ∀ (i : Nat) (ei : List Int × Label), exs[i]? = some ei →
      int_similarity ei.1 v ≠ 0 →
      ((i : Int), (int_similarity ei.1 v : Int)) ∈
        match_terms number_of_matches ((KNN.empty : KNN Label).learn_all exs).index
          (to_terms v) [] := by
    intro i ei hi hne
    rw [map_mem_iff_find _ hsorted, hfind, example_of_id_natCast, hi]
    simp [hne]
  have hne : match_terms number_of_matches ((KNN.empty : KNN Label).learn_all exs).index
      (to_terms v) [] ≠ [] := by
    obtain ⟨ex, hex, hpos⟩ := hsome
    obtain ⟨i, hi⟩ := List.mem_iff_getElem?.mp hex
    intro h0
    have := hentry i ex hi (by omega)
    rw [h0] at this
    simp at this
  obtain ⟨r, hr, hmem, hmax, hmin⟩ := accumulator_best_match_spec _ hsorted hne
  have hfr := (map_mem_iff_find _ hsorted r).mp hmem
  rw [hfind] at hfr
  cases he : example_of_id exs r.1 with
  | none => simp [he] at hfr
  | some ex =>
    rw [he] at hfr
    have hs0 : int_similarity ex.1 v ≠ 0 := by
      intro h0
      simp [h0] at hfr
    simp only [hs0, if_false, Option.some.injEq] at hfr
    have hr2 : r.2 = (int_similarity ex.1 v : Int) := by rw [← hfr]
    obtain ⟨h0, hlt, hget, _⟩ := example_of_id_some he
    refine ⟨r.1.toNat, ex, hget, ?_, ?_, ?_⟩
    · have hsz : to_size_t r.1 = r.1.toNat := by
        unfold to_size_t
        omega
      unfold KNN.classify best_match
      rw [hr]
      simp only [hsz, learn_all_labels, KNN.empty, List.nil_append, List.get?_eq_getElem?,
        List.getElem?_map, hget, Option.map_some']
    · intro i ei hi
      by_cases hz : int_similarity ei.1 v = 0
      · omega
      · have := hmax _ (hentry i ei hi hz)
        rw [hr2] at this
        simp only at this
        exact_mod_cast this
    · intro i ei hi heq
      have hz : int_similarity ei.1 v ≠ 0 := by rw [heq]; exact hs0
      have := hmin _ (hentry i ei hi hz) (by rw [hr2, heq])
      simp only at this
      omega

/-- C15, as the code has it: after `learn([1,0,1], "A")` and `learn([1,1,1], "B")` the
vector `[1,1,0]` is classified "B": it agrees with the first example at one position and
with the second at two, and the accumulator holds these scores for the documents 0 and 1. -/
theorem classify_110_returns_second_label :
    (((KNN.empty : KNN String).learn [1, 0, 1] "A").learn [1, 1, 1] "B").classify [1, 1, 0] =
      Except.ok (some "B") ∧
    hamming_similarity [1, 0, 1] [1, 1, 0] = 1 ∧
    hamming_similarity [1, 1, 1] [1, 1, 0] = 2 ∧
    match_terms number_of_matches
      (((KNN.empty : KNN String).learn [1, 0, 1] "A").learn [1, 1, 1] "B").index
      (to_terms [1, 1, 0]) [] = [(0, 1), (1, 2)] :=
  ⟨rfl, by decide, by decide, rfl⟩

/-- C15 as stated fails: with the labels "A" and "B" the vector `[1,1,0]` is classified
"B", not "A"; its similarity to the example labelled "A" is 1, not 2. -/
theorem classify_110_is_not_first_label :
    (((KNN.empty : KNN String).learn [1, 0, 1] "A").learn [1, 1, 1] "B").classify [1, 1, 0] =
      Except.ok (some "B") ∧
    (((KNN.empty : KNN String).learn [1, 0, 1] "A").learn [1, 1, 1] "B").classify [1, 1, 0] ≠
      Except.ok (some "A") ∧
    hamming_similarity [1, 0, 1] [1, 1, 0] ≠ 2 := by
  have h : (((KNN.empty : KNN String).learn [1, 0, 1] "A").learn [1, 1, 1] "B").classify
      [1, 1, 0] = Except.ok (some "B") := rfl
  refine ⟨h, ?_, by decide⟩
  rw [h]
  intro hc
  injection hc with hc
  injection hc with hc
  exact absurd hc (by decide)

/-- The state of the classifier while the document ids stay in the `int` range: after the
`learn` calls for `exs` on a fresh classifier, at most `2^31` of them, `_labels` holds the
labels in call order; the call number `i` has put one posting with document id `i` under
each term `(p, v_p)` of its vector and none elsewhere; every stored document id is the
number of a call, hence below `_labels.size()`; and `classify` either throws the
empty-result error or returns the label of a learned example. -/
theorem knn_state_invariant (exs : List (List Int × Label)) (hn : exs.length ≤ 2147483648) :
    ((KNN.empty : KNN Label).learn_all exs).labels = exs.map Prod.snd ∧
    ((KNN.empty : KNN Label).learn_all exs).labels.length = exs.length ∧
    (∀ (i : Nat) (ex : List Int × Label), exs[i]? = some ex →
      ((KNN.empty : KNN Label).learn_all exs).labels[i]? = some ex.2 ∧
      (ex.1.length ≤ 2147483648 → to_terms ex.1 = position_terms (ex.1.map to_int) 0 ∧
        (∀ t ∈ to_terms ex.1,
          id_count (i : Int) (postings ((KNN.empty : KNN Label).learn_all exs).index t) = 1) ∧
        (∀ t, t ∉ to_terms ex.1 →
          id_count (i : Int) (postings ((KNN.empty : KNN Label).learn_all exs).index t) = 0))) ∧
    (∀ (t : Key) (p : Posting Int Unit),
      p ∈ postings ((KNN.empty : KNN Label).learn_all exs).index t →
        0 ≤ p.id ∧ p.id < (((KNN.empty : KNN Label).learn_all exs).labels.length : Int)) ∧
    (∀ v : List Int,
      ((KNN.empty : KNN Label).learn_all exs).classify v =
        Except.error "No matching documents" ∨
      ∃ ex ∈ exs, ((KNN.empty : KNN Label).learn_all exs).classify v =
        Except.ok (some ex.2)) := by
  have hlab : ((KNN.empty : KNN Label).learn_all exs).labels = exs.map Prod.snd := by
    simp [learn_all_labels, KNN.empty]
  have hlen : ((KNN.empty : KNN Label).learn_all exs).labels.length = exs.length := by
    rw [hlab, List.length_map]
  refine ⟨hlab, hlen, ?_, ?_, ?_⟩
  · intro i ex hi
    refine ⟨by rw [hlab, List.getElem?_map, hi]; rfl, ?_⟩
    intro hxl
    have hcount : ∀ t,
        id_count (i : Int) (postings ((KNN.empty : KNN Label).learn_all exs).index t) =
          term_count t (position_terms (ex.1.map to_int) 0) := by
      intro t
      rw [knn_id_count exs hn t (i : Int), example_of_id_natCast, hi]
      simp only
      rw [to_terms_eq ex.1 hxl]
    refine ⟨to_terms_eq ex.1 hxl, ?_, ?_⟩
    · intro t ht
      rw [to_terms_eq ex.1 hxl] at ht
      rw [hcount, term_count_of_nodup t _ (position_terms_nodup _ 0), if_pos ht]
    · intro t ht
      rw [to_terms_eq ex.1 hxl] at ht
      rw [hcount, term_count_of_nodup t _ (position_terms_nodup _ 0), if_neg ht]
  · intro t p hp
    rw [hlen]
    exact knn_posting_id_range exs hn t p hp
  · intro v
    have hsorted := match_terms_sorted
      (fun (s : Int) (t : Key) (p : Posting Int Unit) (n : Nat) => number_of_matches s t p n)
      ((KNN.empty : KNN Label).learn_all exs).index (to_terms v)
    cases hacc : match_terms number_of_matches ((KNN.empty : KNN Label).learn_all exs).index
        (to_terms v) [] with
    | nil =>
      left
      unfold KNN.classify best_match
      rw [hacc]
      rfl
    | cons first tl =>
      right
      have hne : match_terms number_of_matches ((KNN.empty : KNN Label).learn_all exs).index
          (to_terms v) [] ≠ [] := by
        rw [hacc]
        exact List.cons_ne_nil _ _
      obtain ⟨r, hr, hmem, _, _⟩ := accumulator_best_match_spec _ hsorted hne
      have hfr := (map_mem_iff_find _ hsorted r).mp hmem
      rw [find_match_terms] at hfr
      have hhits : (hits_of ((KNN.empty : KNN Label).learn_all exs).index (to_terms v)
          r.1).isEmpty = false := by
        cases hh : (hits_of ((KNN.empty : KNN Label).learn_all exs).index (to_terms v)
            r.1).isEmpty with
        | true => simp [hh] at hfr
        | false => rfl
      obtain ⟨t, _, p, hp, hpid⟩ := (hits_of_ne_nil_iff _ _ _).mp hhits
      have hrange := knn_posting_id_range exs hn t p hp
      rw [hpid] at hrange
      have hlt : r.1.toNat < exs.length := by omega
      have hsz : to_size_t r.1 = r.1.toNat := by
        unfold to_size_t
        omega
      refine ⟨exs[r.1.toNat], List.getElem_mem hlt, ?_⟩
      unfold KNN.classify best_match
      rw [hr]
      simp only [hsz, hlab, List.get?_eq_getElem?, List.getElem?_map,
        List.getElem?_eq_getElem hlt, Option.map_some']

/-- One `learn` call after `2^31` calls that each taught the vector `[1]`: the new document
id is `2^31` converted to `int`, that is `-2^31`; queried with `[1]` every document scores
1, so `best_match` returns the smallest id, the negative one, and the lookup in `_labels`
is outside the sequence. -/
theorem knn_lookup_after_int_overflow (exs0 : List (List Int × Label)) (e : List Int × Label)
    (hlen : exs0.length = 2147483648) (hall : ∀ ex ∈ exs0, ex.1 = [1]) (he : e.1 = [1]) :
    ((KNN.empty : KNN Label).learn_all (exs0 ++ [e])).labels.length = 2147483649 ∧
    (∃ p ∈ postings ((KNN.empty : KNN Label).learn_all (exs0 ++ [e])).index (toLex (0, 1)),
      p.id = -2147483648) ∧
    ((KNN.empty : KNN Label).learn_all (exs0 ++ [e])).classify [1] = Except.ok none := by
  have hn : exs0.length ≤ 2147483648 := by omega
  have hterms : to_terms [1] = [(toLex (0, 1) : Key)] := rfl
  have htc : term_count (toLex (0, 1) : Key) (to_terms [1]) = 1 := by
    rw [hterms]
    simp [term_count]
  have hlab0 : ((KNN.empty : KNN Label).learn_all exs0).labels.length = 2147483648 := by
    simp [learn_all_labels, KNN.empty, hlen]
  have hlab1 : ((KNN.empty : KNN Label).learn_all (exs0 ++ [e])).labels.length =
      2147483649 := by
    simp [learn_all_labels, KNN.empty, hlen]
  have hid : to_int ((((((KNN.empty : KNN Label).learn_all exs0).labels ++ [e.2]).length
      - 1 : Nat) : Nat) : Int) = -2147483648 := by
    rw [List.length_append, hlab0, List.length_singleton]
    decide
  have hidx : ((KNN.empty : KNN Label).learn_all (exs0 ++ [e])).index =
      insert_loop false (NoPostingData Key Int) (-2147483648) (to_terms [1]) 0
        ((KNN.empty : KNN Label).learn_all exs0).index := by
    rw [learn_all_append]
    simp only [KNN.learn_all, KNN.learn, insert, hid, he]
  have hcount : ∀ d : Int,
      id_count d (postings ((KNN.empty : KNN Label).learn_all (exs0 ++ [e])).index
        (toLex (0, 1))) =
      (if 0 ≤ d ∧ d < 2147483648 then 1 else 0) + (if d = -2147483648 then 1 else 0) := by
    intro d
    have hA : (match example_of_id exs0 d with
        | some ex => term_count (toLex (0, 1) : Key) (to_terms ex.1)
        | none => 0) = (if 0 ≤ d ∧ d < 2147483648 then 1 else 0) := by
      by_cases hd : 0 ≤ d ∧ d < 2147483648
      · have hlt : d.toNat < exs0.length := by omega
        have hex : example_of_id exs0 d = some exs0[d.toNat] := by
          unfold example_of_id
          rw [if_pos hd.1, List.getElem?_eq_getElem hlt]
        rw [hex, if_pos hd]
        simp only
        rw [hall _ (List.getElem_mem hlt)]
        exact htc
      · have hex : example_of_id exs0 d = none := by
          unfold example_of_id
          by_cases h0 : 0 ≤ d
          · have : exs0.length ≤ d.toNat := by omega
            rw [if_pos h0, List.getElem?_eq_none this]
          · rw [if_neg h0]
        rw [hex, if_neg hd]
    have hB : (if (-2147483648 : Int) = d then 1 else 0) =
        (if d = -2147483648 then 1 else 0) := by
      by_cases hd : d = -2147483648
      · rw [if_pos hd, if_pos hd.symm]
      · rw [if_neg hd, if_neg (fun h => hd h.symm)]
    rw [hidx, id_count_insert_loop_false, knn_id_count exs0 hn, htc, hA, hB]
  have hhits : ∀ d : Int,
      (hits_of ((KNN.empty : KNN Label).learn_all (exs0 ++ [e])).index (to_terms [1]) d).length =
      (if 0 ≤ d ∧ d < 2147483648 then 1 else 0) + (if d = -2147483648 then 1 else 0) := by
    intro d
    rw [length_hits_of, hterms, ← hcount d]
    simp
  have hle : ∀ d : Int,
      (if 0 ≤ d ∧ d < 2147483648 then 1 else 0) + (if d = -2147483648 then 1 else 0) ≤ 1 := by
    intro d
    by_cases h1 : 0 ≤ d ∧ d < 2147483648
    · have h2 : ¬ d = -2147483648 := by omega
      simp [h1, h2]
    · by_cases h2 : d = -2147483648
      · simp [h2]
      · simp [h1, h2]
  have hfind : ∀ d : Int,
      map_find (match_terms number_of_matches
        ((KNN.empty : KNN Label).learn_all (exs0 ++ [e])).index (to_terms [1]) []) d =
      if (if 0 ≤ d ∧ d < 2147483648 then 1 else 0) + (if d = -2147483648 then 1 else 0) = 0
      then none else some (d, 1) := by
    intro d
    have hb : (hits_of ((KNN.empty : KNN Label).learn_all (exs0 ++ [e])).index (to_terms [1])
        d).length < 2147483648 := by
      rw [hhits d]
      exact lt_of_le_of_lt (hle d) (by decide)
    rw [find_match_terms_number_of_matches _ _ _ hb, hhits d]
    by_cases h0 : (if 0 ≤ d ∧ d < 2147483648 then 1 else 0) +
        (if d = -2147483648 then 1 else 0) = 0
    · simp only [h0, if_true]
    · have h1 : (if 0 ≤ d ∧ d < 2147483648 then 1 else 0) +
          (if d = -2147483648 then 1 else 0) = 1 := by
        have := hle d
        omega
      rw [h1]
      rfl
  refine ⟨hlab1, ?_, ?_⟩
  · have hpos : 0 < id_count (-2147483648 : Int)
        (postings ((KNN.empty : KNN Label).learn_all (exs0 ++ [e])).index (toLex (0, 1))) := by
      rw [hcount]
      decide
    unfold id_count at hpos
    rw [List.countP_pos_iff] at hpos
    obtain ⟨p, hp, hpid⟩ := hpos
    exact ⟨p, hp, by simpa using hpid⟩
  · have hsorted := match_terms_sorted
      (fun (s : Int) (t : Key) (p : Posting Int Unit) (n : Nat) => number_of_matches s t p n)
      ((KNN.empty : KNN Label).learn_all (exs0 ++ [e])).index (to_terms [1])
    have hneg : ((-2147483648 : Int), (1 : Int)) ∈ match_terms number_of_matches
        ((KNN.empty : KNN Label).learn_all (exs0 ++ [e])).index (to_terms [1]) [] := by
      rw [map_mem_iff_find _ hsorted, hfind]
      decide
    have hne : match_terms number_of_matches
        ((KNN.empty : KNN Label).learn_all (exs0 ++ [e])).index (to_terms [1]) [] ≠ [] := by
      intro h0
      rw [h0] at hneg
      simp at hneg
    obtain ⟨r, hr, hmem, _, hmin⟩ := accumulator_best_match_spec _ hsorted hne
    have hfr := (map_mem_iff_find _ hsorted r).mp hmem
    rw [hfind] at hfr
    by_cases h0 : (if 0 ≤ r.1 ∧ r.1 < 2147483648 then 1 else 0) +
        (if r.1 = -2147483648 then 1 else 0) = 0
    · simp [h0] at hfr
    · simp only [h0, if_false, Option.some.injEq] at hfr
      have hr2 : r.2 = 1 := by rw [← hfr]
      have hsmall := hmin _ hneg (by rw [hr2])
      simp only at hsmall
      have hr1 : r.1 = -2147483648 := by
        by_cases h1 : 0 ≤ r.1 ∧ r.1 < 2147483648
        · omega
        · by_cases h2 : r.1 = -2147483648
          · exact h2
          · simp [h1, h2] at h0
      have hsz : to_size_t r.1 = 18446744071562067968 := by
        rw [hr1]
        decide
      unfold KNN.classify best_match
      rw [hr]
      simp only [hsz, List.get?_eq_getElem?]
      rw [List.getElem?_eq_none (by rw [hlab1]; decide)]

/-- C14 as stated fails: after `learn([4294967297], "A")` and `learn([1], "B")` the query
`[1]` agrees with the second example only, yet `classify` returns "A", the key of the
first example holding the feature converted to `int`, which is 1; so no example that
maximises the number of positions with equal features carries the returned label. Past
the `int` range of the document ids it fails as well: after `2^31 + 1` calls
`learn([1], "A")` the query `[1]` gets no label at all. -/
theorem classify_confuses_features_equal_as_int :
    ((KNN.empty : KNN String).learn_all wide_examples).classify [1] = Except.ok (some "A") ∧
    hamming_similarity [4294967297] [1] = 0 ∧
    hamming_similarity [1] [1] = 1 ∧
    (∃ ex ∈ wide_examples, 0 < hamming_similarity ex.1 [1]) ∧
    (¬ ∃ (j : Nat) (ex : List Int × String), wide_examples[j]? = some ex ∧
      ((KNN.empty : KNN String).learn_all wide_examples).classify [1] =
        Except.ok (some ex.2) ∧
      (∀ (i : Nat) (ei : List Int × String), wide_examples[i]? = some ei →
        hamming_similarity ei.1 [1] ≤ hamming_similarity ex.1 [1]) ∧
      (∀ (i : Nat) (ei : List Int × String), wide_examples[i]? = some ei →
        hamming_similarity ei.1 [1] = hamming_similarity ex.1 [1] → j ≤ i)) ∧
    ((KNN.empty : KNN String).learn_all
      (List.replicate 2147483648 ([1], "A") ++ [([1], "A")])).classify [1] =
        Except.ok none := by
  have hc : ((KNN.empty : KNN String).learn_all wide_examples).classify [1] =
      Except.ok (some "A") := rfl
  refine ⟨hc, by decide, by decide, ⟨([1], "B"), by simp [wide_examples], by decide⟩, ?_,
    (knn_lookup_after_int_overflow (List.replicate 2147483648 ([1], "A")) ([1], "A")
      (List.length_replicate _ _) (fun ex h => by rw [List.eq_of_mem_replicate h]) rfl).2.2⟩
  rintro ⟨j, ex, hj, hcl, hmax, _⟩
  rw [hc] at hcl
  injection hcl with hcl
  injection hcl with hcl
  have h1 := hmax 1 ([1], "B") rfl
  match j, hj with
  | 0, hj =>
    have hex : ex = ([4294967297], "A") := by
      simpa [wide_examples] using hj.symm
    rw [hex] at h1
    exact absurd h1 (by decide)
  | 1, hj =>
    have hex : ex = ([1], "B") := by
      simpa [wide_examples] using hj.symm
    rw [hex] at hcl
    exact absurd hcl (by decide)
  | n + 2, hj =>
    simp [wide_examples] at hj

/-- C16 at the failing input: `2^31` calls `learn([1], "A")` and one more. `_labels` then
has `2^31 + 1` entries, the last call has stored the document id `-2^31` under the term
`(0, 1)`, and `classify([1])` reads `_labels` outside its bounds. -/
theorem knn_lookup_out_of_bounds_past_int_range :
    ((KNN.empty : KNN String).learn_all
      (List.replicate 2147483648 ([1], "A") ++ [([1], "A")])).labels.length = 2147483649 ∧
    (∃ p ∈ postings ((KNN.empty : KNN String).learn_all
        (List.replicate 2147483648 ([1], "A") ++ [([1], "A")])).index (toLex (0, 1)),
      p.id = -2147483648) ∧
    ((KNN.empty : KNN String).learn_all
      (List.replicate 2147483648 ([1], "A") ++ [([1], "A")])).classify [1] = Except.ok none :=
  knn_lookup_after_int_overflow (List.replicate 2147483648 ([1], "A")) ([1], "A")
    (List.length_replicate _ _) (fun ex h => by rw [List.eq_of_mem_replicate h]) rfl

end KnnClaims

/-! ## Further concrete instances -/

section MoreInstances

/-- C14 at a concrete input: the two sample examples and the query `[1,1,0]`. -/
theorem classify_is_hamming_nearest_neighbour_witness :
    sample_examples.length ≤ 2147483648 ∧
    (∀ ex ∈ sample_examples, ex.1.length ≤ 2147483648) ∧
    ([1, 1, 0] : List Int).length < 2147483648 ∧
    (∃ ex ∈ sample_examples, 0 < int_similarity ex.1 [1, 1, 0]) ∧
    ∃ (j : Nat) (ex : List Int × String), sample_examples[j]? = some ex ∧
      ((KNN.empty : KNN String).learn_all sample_examples).classify [1, 1, 0] =
        Except.ok (some ex.2) ∧
      (∀ (i : Nat) (ei : List Int × String), sample_examples[i]? = some ei →
        int_similarity ei.1 [1, 1, 0] ≤ int_similarity ex.1 [1, 1, 0]) ∧
      (∀ (i : Nat) (ei : List Int × String), sample_examples[i]? = some ei →
        int_similarity ei.1 [1, 1, 0] = int_similarity ex.1 [1, 1, 0] → j ≤ i) := by
  have h1 : sample_examples.length ≤ 2147483648 := by decide
  have h2 : ∀ ex ∈ sample_examples, ex.1.length ≤ 2147483648 := by
    intro ex hex
    simp only [sample_examples, List.mem_cons, List.mem_singleton, List.not_mem_nil,
      or_false] at hex
    rcases hex with h | h
    · rw [h]
      decide
    · rw [h]
      decide
  have h3 : ([1, 1, 0] : List Int).length < 2147483648 := by decide
  have h4 : ∃ ex ∈ sample_examples, 0 < int_similarity ex.1 [1, 1, 0] :=
    ⟨([1, 1, 1], "B"), by simp [sample_examples], by decide⟩
  exact ⟨h1, h2, h3, h4,
    (classify_is_hamming_nearest_neighbour sample_examples [1, 1, 0] h1 h2 h3 h4).1⟩

/-- C18 at a concrete input: document 1 with the unmerged terms `[5, 5]` and the query
`[5, 5]`: two postings at each of two query positions give the score 4. -/
theorem match_count_sums_postings_per_position_witness :
    (([5, 5] : List Nat).map (fun t => id_count 1
      (postings (insert false (NoPostingData Nat Nat) [] 1 [5, 5]).1 t))).sum < 2147483648 ∧
    map_find (match_terms number_of_matches
      (insert false (NoPostingData Nat Nat) [] 1 [5, 5]).1 [5, 5] []) 1 = some (1, 4) := by
  have hb : (([5, 5] : List Nat).map (fun t => id_count 1
      (postings (insert false (NoPostingData Nat Nat) [] 1 [5, 5]).1 t))).sum < 2147483648 := by
    decide
  have h := (match_count_sums_postings_per_position
    (insert false (NoPostingData Nat Nat) [] 1 [5, 5]).1 [5, 5] 1).1 hb
  have hsum : (([5, 5] : List Nat).map (fun t => id_count 1
      (postings (insert false (NoPostingData Nat Nat) [] 1 [5, 5]).1 t))).sum = 4 := by
    decide
  rw [hsum] at h
  exact ⟨hb, h⟩

/-- C20 at a concrete input: the index holding one posting under term 5. -/
theorem reachable_index_invariants_witness :
    Reachable true (NoPostingData Nat Nat)
      (insert_posting true (NoPostingData Nat Nat) [] 1 0 5) ∧
    ∀ (t : Nat) (e : Nat × List (Posting Nat Unit)),
      map_find (insert_posting true (NoPostingData Nat Nat) [] 1 0 5) t = some e → e.2 ≠ [] :=
  ⟨Reachable.step [] 1 0 5 Reachable.empty,
    (reachable_index_invariants true (NoPostingData Nat Nat) _
      (Reachable.step [] 1 0 5 Reachable.empty)).1⟩

end MoreInstances


end InvertedIndex
